import Mathlib

/-!
Verification of the North Sea financial bot core against its source.

The development shallowly embeds the relevant Python functions over
`List Char` (text), `ℚ` (amounts and rates, modelling Python floats on the
small concrete values the claims use) and a calendar-date record `PDate`.
Digits and letter case-folding are modelled for the ASCII range.
-/

set_option maxRecDepth 4000

namespace NS

/-- Python-style whitespace test restricted to the ASCII range (the source
uses regex escapes and str.strip over such characters). -/
def isPyWs (c : Char) : Bool :=
  c == ' ' || c == '\t' || c == '\n' || c == '\r' || c == '\x0b' || c == '\x0c'

/-- ASCII digit test, modelling the regex digit class on the inputs used here. -/
def isDig (c : Char) : Bool := '0' ≤ c && c ≤ '9'

/-- Numeric value of an ASCII digit. -/
def digVal (c : Char) : Nat := c.toNat - '0'.toNat

/-- ASCII lower-casing, modelling case-insensitive regex matching. -/
def lowerAscii (c : Char) : Char :=
  if 'A' ≤ c && c ≤ 'Z' then Char.ofNat (c.toNat + 32) else c

/-- Calendar date (year, month, day) as used by the source's date objects. -/
structure PDate where
  y : Nat
  m : Nat
  d : Nat
  deriving DecidableEq

/-- Date comparison, lexicographic on (year, month, day) — the order used
by the SQL comparisons on date columns. -/
def PDate.leb (a b : PDate) : Bool :=
  a.y < b.y || (a.y == b.y && (a.m < b.m || (a.m == b.m && a.d ≤ b.d)))

/-- Strict date comparison. -/
def PDate.ltb (a b : PDate) : Bool :=
  a.y < b.y || (a.y == b.y && (a.m < b.m || (a.m == b.m && a.d < b.d)))

/-- Gregorian leap-year rule, as in Python's datetime validation. -/
def isLeap (y : Nat) : Bool := (y % 4 == 0 && y % 100 != 0) || y % 400 == 0

/-- Number of days in a month, as in Python's datetime validation. -/
def daysInMonth (y m : Nat) : Nat :=
  if m == 2 then (if isLeap y then 29 else 28)
  else if m == 4 || m == 6 || m == 9 || m == 11 then 30
  else 31

/-- Validity of (year, month, day), mirroring the ValueError check of the
Python date constructor. -/
def validDate (y m d : Nat) : Bool :=
  1 ≤ y && y ≤ 9999 && 1 ≤ m && m ≤ 12 && 1 ≤ d && d ≤ daysInMonth y m

/-- Python str.strip restricted to the modelled whitespace. -/
def pyStrip (s : List Char) : List Char :=
  ((s.dropWhile isPyWs).reverse.dropWhile isPyWs).reverse

/-- Drop a literal pattern from the front, returning the rest on success.
This models matching a regex literal at the current position. -/
def delPre : List Char → List Char → Option (List Char)
  | [], s => some s
  | _ :: _, [] => none
  | p :: ps, c :: cs => if p = c then delPre ps cs else none

/-- Case-insensitive variant of `delPre` (ASCII case only), modelling
`re.IGNORECASE` on the patterns that use it. -/
def delPreCI : List Char → List Char → Option (List Char)
  | [], s => some s
  | _ :: _, [] => none
  | p :: ps, c :: cs => if lowerAscii p = lowerAscii c then delPreCI ps cs else none

/-- Substring containment, modelling Python's `in` on strings. -/
def hasSub (p : List Char) : List Char → Bool
  | [] => (delPre p []).isSome
  | c :: cs => (delPre p (c :: cs)).isSome || hasSub p cs

/-!
Output sanitizer (`fix_html_tags`, src/utils.py lines 14-55).

`re.sub` with a metacharacter-free pattern is literal leftmost
non-overlapping replacement; `replaceLit` is that scanner.  The guard
`if h : ...` only rules out a non-consuming match, which cannot happen for
the non-empty patterns used; it makes termination structural.
-/

/-- Literal replace-all: `re.sub(pat, rep, s)` for a pattern with no regex
metacharacters. -/
def replaceLit (pat rep : List Char) : List Char → List Char
  | [] => []
  | c :: cs =>
    match delPre pat (c :: cs) with
    | some r =>
      if _h : r.length < cs.length + 1 then rep ++ replaceLit pat rep r
      else c :: replaceLit pat rep cs
    | none => c :: replaceLit pat rep cs
  termination_by s => s.length

/-- The opening tag text for a tag name, e.g. `<b>`. -/
def openT (t : List Char) : List Char := '<' :: (t ++ ['>'])

/-- The closing tag text for a tag name, e.g. `</b>`. -/
def closeT (t : List Char) : List Char := '<' :: '/' :: (t ++ ['>'])

/-- Match the doubled-open-tag pattern `<t>[^<]*<t>` at the current
position.  The character class excludes `<`, so the greedy run is forced to
end at the first `<` and the match, when it exists, is unique: returns the
captured run and the rest of the input after the second opening tag. -/
def tryMatch (t : List Char) (s : List Char) : Option (List Char × List Char) :=
  match delPre (openT t) s with
  | none => none
  | some s1 =>
    match delPre (openT t) (s1.dropWhile (· ≠ '<')) with
    | none => none
    | some r => some (s1.takeWhile (· ≠ '<'), r)

/-- `re.sub` of the doubled-open-tag pattern with replacement
`<t>\1</t>`: scan left to right, replace each match, resume after it. -/
def subCloseStr (t : List Char) : List Char → List Char
  | [] => []
  | c :: cs =>
    match tryMatch t (c :: cs) with
    | some (u, r) =>
      if _h : r.length < cs.length + 1 then
        openT t ++ u ++ closeT t ++ subCloseStr t r
      else c :: subCloseStr t cs
    | none => c :: subCloseStr t cs
  termination_by s => s.length

/-- The four tag names whose doubled opening tags are repaired, in the
order the source applies them. -/
def tagB : List Char := ['b']

/-- Tag name `code`. -/
def tagCode : List Char := ['c', 'o', 'd', 'e']

/-- Tag name `strong`. -/
def tagStrong : List Char := ['s', 't', 'r', 'o', 'n', 'g']

/-- Tag name `i`. -/
def tagI : List Char := ['i']

/-- The 14 case-normalisation rules of `tag_fixes`, with the leading `<`
stripped (every pattern and replacement starts with `<`): pairs of
(upper-case spelling, lower-case spelling) of the text after `<`. -/
def caseQR : List (List Char × List Char) :=
  [ (['C', 'O', 'D', 'E', '>'], ['c', 'o', 'd', 'e', '>']),
    (['/', 'C', 'O', 'D', 'E', '>'], ['/', 'c', 'o', 'd', 'e', '>']),
    (['C', 'o', 'd', 'e', '>'], ['c', 'o', 'd', 'e', '>']),
    (['/', 'C', 'o', 'd', 'e', '>'], ['/', 'c', 'o', 'd', 'e', '>']),
    (['B', '>'], ['b', '>']),
    (['/', 'B', '>'], ['/', 'b', '>']),
    (['S', 'T', 'R', 'O', 'N', 'G', '>'], ['s', 't', 'r', 'o', 'n', 'g', '>']),
    (['/', 'S', 'T', 'R', 'O', 'N', 'G', '>'], ['/', 's', 't', 'r', 'o', 'n', 'g', '>']),
    (['I', '>'], ['i', '>']),
    (['/', 'I', '>'], ['/', 'i', '>']),
    (['U', '>'], ['u', '>']),
    (['/', 'U', '>'], ['/', 'u', '>']),
    (['E', 'M', '>'], ['e', 'm', '>']),
    (['/', 'E', 'M', '>'], ['/', 'e', 'm', '>']) ]

/-- `fix_html_tags` (src/utils.py): the 14 literal case fixes followed by
the four doubled-open-tag repairs, in source order. -/
def fixHtmlTags (s : List Char) : List Char :=
  if s.isEmpty then s
  else
    let s1 := caseQR.foldl (fun acc qr => replaceLit ('<' :: qr.1) ('<' :: qr.2) acc) s
    [tagB, tagCode, tagStrong, tagI].foldl (fun acc t => subCloseStr t acc) s1

/-!
Transaction parser (`TransactionParser.parse_transaction`,
src/utils.py lines 80-228).  Matchers work at a fixed position and return
the rest of the input; `search` tries every start position left to right,
which is `re.search` for these backtracking-free patterns.
-/

/-- Value of a digit run as a natural number. -/
def digsToNat (l : List Char) : Nat := l.foldl (fun a c => 10 * a + digVal c) 0

/-- Match the regex `\d+(?:\.\d+)?` at the current position, returning the
numeric value (the greedy fractional part is dropped when no digit follows
the dot, as the regex backtracks). -/
def mNumU (s : List Char) : Option (ℚ × List Char) :=
  let ds := s.takeWhile isDig
  let r := s.dropWhile isDig
  if ds.isEmpty then none
  else
    match r with
    | '.' :: r2 =>
      let fs := r2.takeWhile isDig
      if fs.isEmpty then some ((digsToNat ds : ℚ), r)
      else some ((digsToNat ds : ℚ) + (digsToNat fs : ℚ) / (10 : ℚ) ^ fs.length,
                 r2.dropWhile isDig)
    | _ => some ((digsToNat ds : ℚ), r)

/-- Match `-?\d+(?:\.\d+)?` at the current position. -/
def mNumS : List Char → Option (ℚ × List Char)
  | '-' :: r =>
    match mNumU r with
    | some (v, r2) => some (-v, r2)
    | none => none
  | s => mNumU s

/-- Match the Primary currency token `(?:TW|台幣|臺幣)` (case-insensitive)
at the current position. -/
def mTW (s : List Char) : Option (List Char) :=
  match delPreCI ['T', 'W'] s with
  | some r => some r
  | none =>
    match delPreCI ['台', '幣'] s with
    | some r => some r
    | none => delPreCI ['臺', '幣'] s

/-- Match the Secondary currency token `(?:CN|人民幣|RMB)`
(case-insensitive) at the current position. -/
def mCN (s : List Char) : Option (List Char) :=
  match delPreCI ['C', 'N'] s with
  | some r => some r
  | none =>
    match delPreCI ['人', '民', '幣'] s with
    | some r => some r
    | none => delPreCI ['R', 'M', 'B'] s

/-- Income sign class `[+＋]`. -/
def incSign (c : Char) : Bool := c == '+' || c == '＋'

/-- Expense sign class `[-－]`. -/
def expSign (c : Char) : Bool := c == '-' || c == '－'

/-- The literal source text of the income sign class; the source tests
`trans_pattern in text` on this literal string, not on its matches. -/
def incLit : List Char := ['[', '\\', '+', '＋', ']']

/-- The literal source text of the expense sign class. -/
def expLit : List Char := ['[', '\\', '-', '－', ']']

/-- Try a position matcher at every start position, left to right:
`re.search` for patterns whose position match is deterministic. -/
def search {α : Type} (m : List Char → Option α) : List Char → Option α
  | [] => m []
  | c :: cs =>
    match m (c :: cs) with
    | some v => some v
    | none => search m cs

/-- Match `curr\s*(?:sign\s*)?(-?\d+(?:\.\d+)?)` at the current position:
currency token, optional whitespace, optional sign (greedy, with fallback
to the signless alternative when no number follows it), then the number. -/
def mCurrAmt (mc : List Char → Option (List Char)) (sign : Char → Bool)
    (s : List Char) : Option (ℚ × List Char) :=
  match mc s with
  | none => none
  | some r1 =>
    let r2 := r1.dropWhile isPyWs
    match r2 with
    | c :: r3 =>
      if sign c then
        match mNumS (r3.dropWhile isPyWs) with
        | some v => some v
        | none => mNumS r2
      else mNumS r2
    | [] => mNumS r2

/-- Outcome of a first-loop match (src/utils.py lines 130-154): the stored
currency key, amount and transaction type.  `text` is the text the literal
`trans_pattern in text` containment test runs on. -/
def loop1Result (ck tk : String) (tLit : List Char) (v : ℚ) (text : List Char) :
    String × ℚ × String :=
  if hasSub tLit text || v < 0 then
    let tt := if v < 0 then "expense" else tk
    let v2 := if tt == "expense" && v > 0 then -v else v
    (ck, |v2|, tt)
  else (ck, |v|, "income")

/-- The first parsing loop (src/utils.py lines 122-157): currencies TW then
CN, sign classes income then expense, first regex match wins. -/
def runLoop1 (text : List Char) : Option (String × ℚ × String) :=
  match search (mCurrAmt mTW incSign) text with
  | some (v, _) => some (loop1Result "TW" "income" incLit v text)
  | none =>
  match search (mCurrAmt mTW expSign) text with
  | some (v, _) => some (loop1Result "TW" "expense" expLit v text)
  | none =>
  match search (mCurrAmt mCN incSign) text with
  | some (v, _) => some (loop1Result "CN" "income" incLit v text)
  | none =>
  match search (mCurrAmt mCN expSign) text with
  | some (v, _) => some (loop1Result "CN" "expense" expLit v text)
  | none => none

/-- Match `curr\s*([\d]+(?:\.\d+)?)` at the current position (the bare
default-direction pattern of the second loop). -/
def mCurrBare (mc : List Char → Option (List Char)) (s : List Char) :
    Option (ℚ × List Char) :=
  match mc s with
  | none => none
  | some r1 => mNumU (r1.dropWhile isPyWs)

/-- The second parsing loop (src/utils.py lines 160-180): bare
currency+amount with the currency-specific default direction. -/
def runLoop2 (text : List Char) : Option (String × ℚ × String) :=
  match search (mCurrBare mTW) text with
  | some (v, _) => some ("TW", v, "income")
  | none =>
  match search (mCurrBare mCN) text with
  | some (v, _) => some ("CN", v, "expense")
  | none => none

/-- Match the combined currency alternation
`(TW|台幣|臺幣|CN|人民幣|RMB)` of the third pattern, returning the
canonical key the source maps the match to. -/
def mAnyCurr (s : List Char) : Option (String × List Char) :=
  match mTW s with
  | some r => some ("TW", r)
  | none =>
    match mCN s with
    | some r => some ("CN", r)
    | none => none

/-- Match `(-)(?:(TW|台幣|臺幣|CN|人民幣|RMB)\s*)?(\d+(?:\.\d+)?)` at the
current position (third pattern, src/utils.py line 186): a minus, an
optional currency (greedy, dropped when no number follows), a number. -/
def mNegAmt : List Char → Option (Option String × ℚ × List Char)
  | '-' :: r =>
    match mAnyCurr r with
    | some (tag, r1) =>
      match mNumU (r1.dropWhile isPyWs) with
      | some (v, r2) => some (some tag, v, r2)
      | none =>
        match mNumU r with
        | some (v, r2) => some (none, v, r2)
        | none => none
    | none =>
      match mNumU r with
      | some (v, r2) => some (none, v, r2)
      | none => none
  | _ => none

/-- The third parsing branch (src/utils.py lines 182-211): a bare negative
amount is stored negated with type expense, defaulting the currency to TW. -/
def runLoop3 (text : List Char) : Option (String × ℚ × String) :=
  match search mNegAmt text with
  | some (tag, v, _) => some (tag.getD "TW", -v, "expense")
  | none => none

/-- Match `(\d{1,2})sep` at the current position: one or two digits
(greedy, backtracking on the separator) followed by the separator. -/
def m12sep (sep : Char) : List Char → Option (Nat × List Char)
  | a :: b :: c :: r =>
    if isDig a && isDig b && c == sep then some (10 * digVal a + digVal b, r)
    else if isDig a && b == sep then some (digVal a, c :: r)
    else none
  | [a, b] => if isDig a && b == sep then some (digVal a, []) else none
  | _ => none

/-- Match a final `(\d{1,2})` at the current position: two digits when
available, else one (greedy, no trailing constraint). -/
def m12end : List Char → Option (Nat × List Char)
  | a :: b :: r =>
    if isDig a && isDig b then some (10 * digVal a + digVal b, r)
    else if isDig a then some (digVal a, b :: r)
    else none
  | [a] => if isDig a then some (digVal a, []) else none
  | [] => none

/-- Date pattern `(\d{1,2})/(\d{1,2})` at the current position. -/
def mD1 (s : List Char) : Option ((Nat × Nat) × List Char) :=
  match m12sep '/' s with
  | some (mo, r1) =>
    match m12end r1 with
    | some (da, r2) => some ((mo, da), r2)
    | none => none
  | none => none

/-- Date pattern `(\d{4})-(\d{1,2})-(\d{1,2})` at the current position. -/
def mD2 (s : List Char) : Option ((Nat × Nat × Nat) × List Char) :=
  match s with
  | a :: b :: c :: d :: e :: r =>
    if isDig a && isDig b && isDig c && isDig d && e == '-' then
      match m12sep '-' r with
      | some (mo, r1) =>
        match m12end r1 with
        | some (da, r2) =>
          some ((1000 * digVal a + 100 * digVal b + 10 * digVal c + digVal d, mo, da), r2)
        | none => none
      | none => none
    else none
  | _ => none

/-- Date pattern `(\d{1,2})-(\d{1,2})` at the current position. -/
def mD3 (s : List Char) : Option ((Nat × Nat) × List Char) :=
  match m12sep '-' s with
  | some (mo, r1) =>
    match m12end r1 with
    | some (da, r2) => some ((mo, da), r2)
    | none => none
  | none => none

/-- Date pattern `(\d{1,2})月(\d{1,2})日` at the current position. -/
def mD4 (s : List Char) : Option ((Nat × Nat) × List Char) :=
  match m12sep '月' s with
  | some (mo, r1) =>
    match m12sep '日' r1 with
    | some (da, r2) => some ((mo, da), r2)
    | none => none
  | none => none

/-- Remove every match of a position matcher (`re.sub(pattern, '', text)`):
scan left to right, drop each match, resume after it.  The guard only rules
out a non-consuming match, impossible for the date patterns used. -/
def subAll {α : Type} (m : List Char → Option (α × List Char)) :
    List Char → List Char
  | [] => []
  | c :: cs =>
    match m (c :: cs) with
    | some (_, r) =>
      if _h : r.length < cs.length + 1 then subAll m r
      else c :: subAll m cs
    | none => c :: subAll m cs
  termination_by s => s.length

/-- The date-extraction step (src/utils.py lines 94-112): the four date
patterns are tried in order; an invalidly-valued match falls through to the
next pattern; on success all matches of the winning pattern are removed
from the text and the result stripped. -/
def dateStep (today : PDate) (text : List Char) : Option PDate × List Char :=
  let step4 : Option PDate × List Char :=
    match search mD4 text with
    | some ((mo, da), _) =>
      if validDate today.y mo da then (some ⟨today.y, mo, da⟩, pyStrip (subAll mD4 text))
      else (none, text)
    | none => (none, text)
  let step3 : Option PDate × List Char :=
    match search mD3 text with
    | some ((mo, da), _) =>
      if validDate today.y mo da then (some ⟨today.y, mo, da⟩, pyStrip (subAll mD3 text))
      else step4
    | none => step4
  let step2 : Option PDate × List Char :=
    match search mD2 text with
    | some ((yr, mo, da), _) =>
      if validDate yr mo da then (some ⟨yr, mo, da⟩, pyStrip (subAll mD2 text))
      else step3
    | none => step3
  match search mD1 text with
  | some ((mo, da), _) =>
    if validDate today.y mo da then (some ⟨today.y, mo, da⟩, pyStrip (subAll mD1 text))
    else step2
  | none => step2

/-- The user-mention step (src/utils.py lines 87-92): a leading `@` and a
space split off the mentioned handle. -/
def splitMention (t : List Char) : Option (List Char) × List Char :=
  match t with
  | '@' :: _ =>
    match t.dropWhile (· ≠ ' ') with
    | [] => (none, t)
    | _ :: after => (some ((t.takeWhile (· ≠ ' ')).drop 1), after)
  | _ => (none, t)

/-- The record returned by a successful parse (the fields of the source's
result dict that carry the transaction). -/
structure ParsedTx where
  mentionedUser : Option (List Char)
  date : PDate
  currency : String
  amount : ℚ
  ttype : String
  deriving DecidableEq

/-- `TransactionParser.parse_transaction` (src/utils.py lines 80-228).
`today` stands for `date.today()` / `datetime.now().year`. -/
def parseTransaction (input : List Char) (today : PDate) : Option ParsedTx :=
  let t0 := pyStrip input
  let mt := splitMention t0
  let dt := dateStep today mt.2
  let d := dt.1.getD today
  match runLoop1 dt.2 with
  | some (ck, amt, tt) => some ⟨mt.1, d, ck, amt, tt⟩
  | none =>
    match runLoop2 dt.2 with
    | some (ck, amt, tt) => some ⟨mt.1, d, ck, amt, tt⟩
    | none =>
      match runLoop3 dt.2 with
      | some (ck, amt, tt) => some ⟨mt.1, d, ck, amt, tt⟩
      | none => none

/-!
Ledger store (src/railway_database.py; src/database.py has the same SQL
for the functions modelled here).  The store is a list of rows; SQL
filtering and ordering are modelled directly on that list.
-/

/-- One row of the `exchange_rates` table. -/
structure RateRow where
  date : PDate
  currency : String
  rate : ℚ
  deriving DecidableEq

/-- `get_exchange_rate(rate_date, currency)` (src/railway_database.py
lines 153-175; src/database.py lines 237-256): the SQL
`WHERE date <= target AND currency = c ORDER BY date DESC LIMIT 1`,
i.e. the maximal-date matching row, `None` when there is none.  Among
equal dates (impossible under the table's unique (date, currency) key) the
earliest stored row is kept; `pickLater` is the max-date selection step. -/
def pickLater (acc : Option RateRow) (r : RateRow) : Option RateRow :=
  match acc with
  | none => some r
  | some b => if b.date.ltb r.date then some r else acc

/-- `get_exchange_rate` itself: filter, take the latest-dated row, return
its rate. -/
def getExchangeRate (store : List RateRow) (target : PDate) (curr : String) :
    Option ℚ :=
  ((store.filter (fun r => r.date.leb target && r.currency == curr)).foldl
    pickLater none).map (fun r => r.rate)

/-- The exchange-rate store of the claim's concrete scenario:
30.0 on May 1 and 31.0 on May 15 (Primary currency). -/
def demoRates : List RateRow :=
  [⟨⟨2025, 5, 1⟩, "TW", 30⟩, ⟨⟨2025, 5, 15⟩, "TW", 31⟩]

/-- Day-scoped rates of the spec's end-to-end scenario: 33.33 on June 1,
30.0 on other days (Secondary rate 7 throughout). -/
def demoRateFn : PDate → ℚ × ℚ :=
  fun d => if d = ⟨2025, 6, 1⟩ then (3333 / 100, 7) else (30, 7)

/-- Lookup in an insertion-ordered association list (a Python dict). -/
def alGet (k : String) : List (String × ℚ) → Option ℚ
  | [] => none
  | kv :: rest => if kv.1 = k then some kv.2 else alGet k rest

/-- Assignment in an insertion-ordered association list (a Python dict):
update in place, else append. -/
def alSet (k : String) (v : ℚ) : List (String × ℚ) → List (String × ℚ)
  | [] => [(k, v)]
  | kv :: rest => if kv.1 = k then (k, v) :: rest else kv :: alSet k v rest

/-- Insert a row into a list sorted by strictly descending date, keeping
rows of equal date in their original order. -/
def insertDesc (r : RateRow) : List RateRow → List RateRow
  | [] => [r]
  | x :: xs => if x.date.ltb r.date then r :: x :: xs else x :: insertDesc r xs

/-- Sort rows by descending date (`ORDER BY date DESC`), stably. -/
def sortDesc (l : List RateRow) : List RateRow := l.foldr insertDesc []

/-- First phase of `get_latest_exchange_rates` (src/railway_database.py
lines 526-543): the rates stored for the exact date, mapping TW/CN to
TWD/CNY and other currency codes to themselves (`created_at` tie-breaking
is the stored row order). -/
def ratesPhase1 (store : List RateRow) (target : PDate) : List (String × ℚ) :=
  (store.filter (fun r => r.date == target)).foldl
    (fun acc r =>
      if r.currency == "TW" then alSet "TWD" r.rate acc
      else if r.currency == "CN" then alSet "CNY" r.rate acc
      else alSet r.currency r.rate acc) []

/-- Second phase (lines 545-562): when the exact date produced nothing,
take the first TW and CN among the ten most recent rows at or before the
target date. -/
def ratesPhase2 (store : List RateRow) (target : PDate)
    (rates1 : List (String × ℚ)) : List (String × ℚ) :=
  if rates1.isEmpty then
    ((sortDesc (store.filter (fun r => r.date.leb target))).take 10).foldl
      (fun acc r =>
        if r.currency == "TW" && (alGet "TWD" acc).isNone then
          alSet "TWD" r.rate acc
        else if r.currency == "CN" && (alGet "CNY" acc).isNone then
          alSet "CNY" r.rate acc
        else acc) rates1
  else rates1

/-- Third phase (lines 564-568): fill whichever of TWD/CNY is still
missing with the fallback constants 30.0 and 7.0. -/
def ensureDefaults (l : List (String × ℚ)) : List (String × ℚ) :=
  let l3 := if (alGet "TWD" l).isNone then alSet "TWD" 30 l else l
  if (alGet "CNY" l3).isNone then alSet "CNY" 7 l3 else l3

/-- `get_latest_exchange_rates(rate_date)` (src/railway_database.py lines
515-576): the three phases above, and the fallback dict when the store
access fails (the enclosing try/except). -/
def getLatestExchangeRates (store : List RateRow) (dbFail : Bool)
    (target : PDate) : List (String × ℚ) :=
  if dbFail then [("TWD", 30), ("CNY", 7)]
  else ensureDefaults (ratesPhase2 store target (ratesPhase1 store target))

/-- One row of the `transactions` table (the fields the delete matches on,
plus the type tag). -/
structure TxRow where
  userId : Int
  date : PDate
  currency : String
  amount : ℚ
  ttype : String
  deriving DecidableEq

/-- The WHERE clause of `delete_transaction`. -/
def txMatches (uid : Int) (d : PDate) (c : String) (a : ℚ) (t : TxRow) : Bool :=
  t.userId == uid && t.date == d && t.currency == c && decide (t.amount = a)

/-- `delete_transaction(user_id, transaction_date, currency, amount)`
(src/railway_database.py lines 340-358): DELETE of every matching row,
returning `cursor.rowcount > 0` and the resulting store. -/
def deleteTransaction (store : List TxRow) (uid : Int) (d : PDate)
    (c : String) (a : ℚ) : Bool × List TxRow :=
  let remaining := store.filter (fun t => !(txMatches uid d c a t))
  (decide (remaining.length < store.length), remaining)

/-!
Report aggregation (src/group_report_clean.py and
src/fleet_report_clean.py).  Amount and rate formatting (Python's
`:,.0f` / `:,.2f` / `str(float)`) is opaque to every claim, so the
formatters take the three numeral renderers as parameters; the rest of the
control flow and text is embedded literally.  The awaited
`get_latest_exchange_rates(date_obj)` call followed by
`.get('TWD', 30.0)` / `.get('CNY', 7.0)` is abstracted as a function
`rateFn` from the date to that pair, and the awaited
`get_user_display_name` / `get_group_name` calls as `nameFn` / `gname`
(the formatters are modelled with `db_manager` present). -/

/-- The numeral renderers a report is built with: `:,.0f`, `:,.2f` and the
bare float rendering used for rates. -/
structure Fmt where
  f0 : ℚ → String
  f2 : ℚ → String
  fr : ℚ → String

/-- A ledger entry dict as the report formatters receive it. -/
structure LRow where
  ttype : String
  currency : String
  amount : ℚ
  date : Option PDate
  userId : Option Int
  displayName : Option String
  username : Option String
  groupId : Option Int
  deriving DecidableEq

/-- Python `a or b` on an optional string (empty and missing are falsy). -/
def pyOrStr : Option String → String → String
  | some s, dflt => if s == "" then dflt else s
  | none, dflt => dflt

/-- Python truthiness of an optional string. -/
def truthyS : Option String → Bool
  | some s => s != ""
  | none => false

/-- Rendering of a value inside an f-string (`None` prints as itself). -/
def optStr : Option String → String
  | some s => s
  | none => "None"

/-- Display-name resolution of the group report (src/group_report_clean.py
lines 64-71), with `db_manager` present: the store lookup (`nameFn`,
returning `None` on failure) when the user id is truthy, else
`display_name or username` — the row dicts carry both keys, so the `or`
yields the username value even when that is `None`. -/
def dispName (nameFn : Int → Option String) (t : LRow) : Option String :=
  let fallback : Option String := if truthyS t.displayName then t.displayName else t.username
  match t.userId with
  | some u =>
    if u == 0 then fallback
    else
      match nameFn u with
      | some n => if n == "" then fallback else some n
      | none => fallback
  | none => fallback

/-- A day key: the `'%m/%d'` bucket key as the (month, day) pair it
determines. -/
def DayKey := Nat × Nat
  deriving DecidableEq

/-- Lookup in an insertion-ordered association list keyed by day. -/
def dkGet {β : Type} (k : DayKey) : List (DayKey × β) → Option β
  | [] => none
  | kv :: rest => if kv.1 = k then some kv.2 else dkGet k rest

/-- Assignment in an insertion-ordered association list keyed by day. -/
def dkSet {β : Type} (k : DayKey) (v : β) : List (DayKey × β) → List (DayKey × β)
  | [] => [(k, v)]
  | kv :: rest => if kv.1 = k then (k, v) :: rest else kv :: dkSet k v rest

/-- In-place update of the value at a present key (no-op when absent;
the builders only call it right after inserting the key). -/
def dkUpd {β : Type} (k : DayKey) (f : β → β) : List (DayKey × β) → List (DayKey × β)
  | [] => []
  | kv :: rest => if kv.1 = k then (kv.1, f kv.2) :: rest else kv :: dkUpd k f rest

/-- Group-report day bucket: the recorded (amount, user) pairs per
currency, in arrival order. -/
structure GBucket where
  tw : List (ℚ × Option String)
  cn : List (ℚ × Option String)
  deriving DecidableEq

/-- The transaction-processing loop of the group report
(src/group_report_clean.py lines 35-88): income rows with a date are
bucketed by `'%m/%d'` key (the bucket is created before the currency is
checked), valid-currency amounts are appended, and `daily_rates[day_key]`
is overwritten with the row's date object. -/
def buildGroup (nameFn : Int → Option String) (rows : List LRow) :
    List (DayKey × GBucket) × List (DayKey × PDate) :=
  rows.foldl
    (fun acc t =>
      if t.ttype == "income" then
        match t.date with
        | none => acc
        | some dobj =>
          let k : DayKey := (dobj.m, dobj.d)
          let dtx := if (dkGet k acc.1).isNone then acc.1 ++ [(k, ⟨[], []⟩)] else acc.1
          let user := dispName nameFn t
          let dtx2 :=
            if t.currency == "TW" then
              dkUpd k (fun b => ⟨b.tw ++ [(t.amount, user)], b.cn⟩) dtx
            else if t.currency == "CN" then
              dkUpd k (fun b => ⟨b.tw, b.cn ++ [(t.amount, user)]⟩) dtx
            else dtx
          (dtx2, dkSet k dobj acc.2)
      else acc)
    ([], [])

/-- The four running totals of a report. -/
structure Totals where
  twU : ℚ
  cnU : ℚ
  twA : ℚ
  cnA : ℚ
  deriving DecidableEq

/-- The grand-total loop of the group report (src/group_report_clean.py
lines 97-128): per day, in insertion order, the day's own rates convert
the day's positive per-currency subtotals, and the settlement totals
accumulate those per-day conversions; `groupStep` is one day's step. -/
def groupStep (rateFn : PDate → ℚ × ℚ) (drates : List (DayKey × PDate))
    (acc : Totals) (kb : DayKey × GBucket) : Totals :=
  let rts := rateFn ((dkGet kb.1 drates).getD ⟨0, 0, 0⟩)
  let twDaily := (kb.2.tw.map (fun e => e.1)).sum
  let cnDaily := (kb.2.cn.map (fun e => e.1)).sum
  { twU := if twDaily > 0 then acc.twU + twDaily / rts.1 else acc.twU
    cnU := if cnDaily > 0 then acc.cnU + cnDaily / rts.2 else acc.cnU
    twA := acc.twA + twDaily
    cnA := acc.cnA + cnDaily }

/-- The grand-total fold of the group report. -/
def groupTotals (rateFn : PDate → ℚ × ℚ) (dtx : List (DayKey × GBucket))
    (drates : List (DayKey × PDate)) : Totals :=
  dtx.foldl (groupStep rateFn drates) ⟨0, 0, 0, 0⟩

/-- Zero-padded two-digit rendering, as `'%m'`/`'%d'` produce. -/
def pad2 (n : Nat) : String := if n < 10 then "0" ++ toString n else toString n

/-- The `'%m/%d'` display key of a day. -/
def keyStr (k : DayKey) : String := pad2 k.1 ++ "/" ++ pad2 k.2

/-- Order of day keys; on zero-padded `'%m/%d'` strings the Python string
sort is exactly this (month, day) order. -/
def keyLt (a b : DayKey) : Bool := a.1 < b.1 || (a.1 == b.1 && a.2 < b.2)

/-- Insertion step of the ascending day-key sort. -/
def insKey (k : DayKey) : List DayKey → List DayKey
  | [] => [k]
  | x :: xs => if keyLt k x then k :: x :: xs else x :: insKey k xs

/-- `sorted(daily_transactions.keys())`. -/
def sortKeys (l : List DayKey) : List DayKey := l.foldr insKey []

/-- User-totals accumulation for one day of the group report
(src/group_report_clean.py lines 183-197): TW entries then CN entries, in
arrival order, into an insertion-ordered user map (`None` is a key like
any other, as in the Python dict). -/
def userTotals (b : GBucket) : List (Option String × (ℚ × ℚ)) :=
  let step := fun (isTW : Bool) (acc : List (Option String × (ℚ × ℚ))) (e : ℚ × Option String) =>
    let upd := fun (p : ℚ × ℚ) => if isTW then (p.1 + e.1, p.2) else (p.1, p.2 + e.1)
    let rec go : List (Option String × (ℚ × ℚ)) → List (Option String × (ℚ × ℚ))
      | [] => [(e.2, upd (0, 0))]
      | kv :: rest => if kv.1 == e.2 then (kv.1, upd kv.2) :: rest else kv :: go rest
    go acc
  b.cn.foldl (step false) (b.tw.foldl (step true) [])

/-- The per-day section of the group report (src/group_report_clean.py
lines 148-215). -/
def renderGroupDay (fmt : Fmt) (rateFn : PDate → ℚ × ℚ)
    (dtx : List (DayKey × GBucket)) (drates : List (DayKey × PDate))
    (k : DayKey) : List String :=
  match dkGet k dtx with
  | none => []
  | some b =>
    let rts := rateFn ((dkGet k drates).getD ⟨0, 0, 0⟩)
    let twDaily := (b.tw.map (fun e => e.1)).sum
    let cnDaily := (b.cn.map (fun e => e.1)).sum
    if twDaily > 0 || cnDaily > 0 then
      let header := keyStr k ++ " 台幣匯率" ++ fmt.fr rts.1 ++ " 人民幣匯率" ++ fmt.fr rts.2
      let parts :=
        (if twDaily > 0 then
          ["NT$" ++ fmt.f0 twDaily ++ "(" ++ fmt.f2 (twDaily / rts.1) ++ ")"] else []) ++
        (if cnDaily > 0 then
          ["CN¥" ++ fmt.f0 cnDaily ++ "(" ++ fmt.f2 (cnDaily / rts.2) ++ ")"] else [])
      let dayLines := if parts.isEmpty then [header] else [header, String.intercalate "  " parts]
      let userLines := (userTotals b).foldr
        (fun uv acc =>
          let ps :=
            (if uv.2.1 > 0 then ["NT$" ++ fmt.f0 uv.2.1] else []) ++
            (if uv.2.2 > 0 then ["CN¥" ++ fmt.f0 uv.2.2] else [])
          if ps.isEmpty then acc
          else ("   • " ++ String.intercalate "  " ps ++ " <code>" ++ optStr uv.1 ++ "</code>") :: acc)
        []
      dayLines ++ userLines ++ [""]
    else []

/-- The title line of the group report (hard-coded month in the source). -/
def groupTitle (groupName : String) : String :=
  "<b>" ++ groupName ++ " 2025年6月群組報表</b>"

/-- `format_group_report_exact` (src/group_report_clean.py lines 21-220). -/
def formatGroupReportExact (fmt : Fmt) (rateFn : PDate → ℚ × ℚ)
    (nameFn : Int → Option String) (rows : List LRow) (groupName : String) : String :=
  if rows.isEmpty then groupTitle groupName ++ "\n\n❌ 暫無數據"
  else
    let built := buildGroup nameFn rows
    if built.1.isEmpty then groupTitle groupName ++ "\n\n❌ 暫無數據"
    else
      let tot := groupTotals rateFn built.1 built.2
      let l1 : List String := [groupTitle groupName, ""]
      let l2 := if tot.twA > 0 then
          l1 ++ ["◉ 台幣業績", "NT$" ++ fmt.f0 tot.twA ++ " → USDT$" ++ fmt.f2 tot.twU]
        else l1
      let l3 := if tot.cnA > 0 then
          l2 ++ ["◉ 人民幣業績", "CN¥" ++ fmt.f0 tot.cnA ++ " → USDT$" ++ fmt.f2 tot.cnU]
        else l2
      let l4 := l3 ++ ["_____________________________"]
      let l5 := l4 ++ (sortKeys (built.1.map (fun kv => kv.1))).foldr
        (fun k acc => renderGroupDay fmt rateFn built.1 built.2 k ++ acc) []
      String.intercalate "\n" l5

/-- Fleet-report day bucket: per-currency daily totals over all groups and
the per-group breakdown, in arrival order. -/
structure FBucket where
  tw : ℚ
  cn : ℚ
  groups : List (String × (ℚ × ℚ))
  deriving DecidableEq

/-- Per-group accumulation inside a fleet day bucket. -/
def fbAddGroup (g : String) (isTW : Bool) (a : ℚ) :
    List (String × (ℚ × ℚ)) → List (String × (ℚ × ℚ))
  | [] => [(g, if isTW then (a, 0) else (0, a))]
  | kv :: rest =>
    if kv.1 == g then
      (kv.1, if isTW then (kv.2.1 + a, kv.2.2) else (kv.2.1, kv.2.2 + a)) :: rest
    else kv :: fbAddGroup g isTW a rest

/-- The transaction-processing loop of the fleet report
(src/fleet_report_clean.py lines 35-80): income rows with a date are
bucketed by day; valid-currency amounts accumulate into the day totals,
and when the row has a truthy group id its resolved group name
accumulates the per-group breakdown. -/
def buildFleet (gname : Int → Option String) (rows : List LRow) :
    List (DayKey × FBucket) × List (DayKey × PDate) :=
  rows.foldl
    (fun acc t =>
      if t.ttype == "income" then
        match t.date with
        | none => acc
        | some dobj =>
          let k : DayKey := (dobj.m, dobj.d)
          let dtx := if (dkGet k acc.1).isNone then acc.1 ++ [(k, ⟨0, 0, []⟩)] else acc.1
          let dtx2 :=
            if t.currency == "TW" || t.currency == "CN" then
              let isTW := t.currency == "TW"
              let dtx1 := dkUpd k
                (fun b => if isTW then ⟨b.tw + t.amount, b.cn, b.groups⟩
                          else ⟨b.tw, b.cn + t.amount, b.groups⟩) dtx
              match t.groupId with
              | some g =>
                if g ≠ 0 then
                  let nm := pyOrStr (gname g) ("群組" ++ toString g)
                  dkUpd k (fun b => ⟨b.tw, b.cn, fbAddGroup nm isTW t.amount b.groups⟩) dtx1
                else dtx1
              | none => dtx1
            else dtx
          (dtx2, dkSet k dobj acc.2)
      else acc)
    ([], [])

/-- The grand-total loop of the fleet report (src/fleet_report_clean.py
lines 89-116), identical in shape to the group one; `fleetStep` is one
day's step. -/
def fleetStep (rateFn : PDate → ℚ × ℚ) (drates : List (DayKey × PDate))
    (acc : Totals) (kb : DayKey × FBucket) : Totals :=
  let rts := rateFn ((dkGet kb.1 drates).getD ⟨0, 0, 0⟩)
  let b := kb.2
  { twU := if b.tw > 0 then acc.twU + b.tw / rts.1 else acc.twU
    cnU := if b.cn > 0 then acc.cnU + b.cn / rts.2 else acc.cnU
    twA := acc.twA + b.tw
    cnA := acc.cnA + b.cn }

/-- The grand-total fold of the fleet report. -/
def fleetTotals (rateFn : PDate → ℚ × ℚ) (dtx : List (DayKey × FBucket))
    (drates : List (DayKey × PDate)) : Totals :=
  dtx.foldl (fleetStep rateFn drates) ⟨0, 0, 0, 0⟩

/-- The per-day section of the fleet report (src/fleet_report_clean.py
lines 136-182). -/
def renderFleetDay (fmt : Fmt) (rateFn : PDate → ℚ × ℚ)
    (dtx : List (DayKey × FBucket)) (drates : List (DayKey × PDate))
    (k : DayKey) : List String :=
  match dkGet k dtx with
  | none => []
  | some b =>
    let rts := rateFn ((dkGet k drates).getD ⟨0, 0, 0⟩)
    if b.tw > 0 || b.cn > 0 then
      let header := keyStr k ++ " 台幣匯率" ++ fmt.fr rts.1 ++ " 人民幣匯率" ++ fmt.fr rts.2
      let parts :=
        (if b.tw > 0 then
          ["NT$" ++ fmt.f0 b.tw ++ "(" ++ fmt.f2 (b.tw / rts.1) ++ ")"] else []) ++
        (if b.cn > 0 then
          ["CN¥" ++ fmt.f0 b.cn ++ "(" ++ fmt.f2 (b.cn / rts.2) ++ ")"] else [])
      let dayLines := if parts.isEmpty then [header] else [header, String.intercalate "  " parts]
      let groupLines := b.groups.foldr
        (fun gv acc =>
          let ps :=
            (if gv.2.1 > 0 then ["NT$" ++ fmt.f0 gv.2.1] else []) ++
            (if gv.2.2 > 0 then ["CN¥" ++ fmt.f0 gv.2.2] else [])
          if ps.isEmpty then acc
          else ("   • " ++ String.intercalate "  " ps ++ " " ++ gv.1) :: acc)
        []
      dayLines ++ groupLines ++ [""]
    else []

/-- The title line of the fleet report. -/
def fleetTitle (month year : Nat) : String :=
  "<b>North™Sea 北金國際 " ++ toString year ++ "年" ++ toString month ++ "月車隊報表</b>"

/-- `format_fleet_report_exact` (src/fleet_report_clean.py lines 21-187). -/
def formatFleetReportExact (fmt : Fmt) (rateFn : PDate → ℚ × ℚ)
    (gname : Int → Option String) (rows : List LRow) (month year : Nat) : String :=
  if rows.isEmpty then fleetTitle month year ++ "\n\n❌ 暫無數據"
  else
    let built := buildFleet gname rows
    if built.1.isEmpty then fleetTitle month year ++ "\n\n❌ 暫無數據"
    else
      let tot := fleetTotals rateFn built.1 built.2
      let l1 : List String := [fleetTitle month year, ""]
      let l2 := if tot.twA > 0 then
          l1 ++ ["◉ 台幣業績", "NT$" ++ fmt.f0 tot.twA ++ " → USDT$" ++ fmt.f2 tot.twU]
        else l1
      let l3 := if tot.cnA > 0 then
          l2 ++ ["◉ 人民幣業績", "CN¥" ++ fmt.f0 tot.cnA ++ " → USDT$" ++ fmt.f2 tot.cnU]
        else l2
      let l4 := l3 ++ ["_____________________________"]
      let l5 := l4 ++ (sortKeys (built.1.map (fun kv => kv.1))).foldr
        (fun k acc => renderFleetDay fmt rateFn built.1 built.2 k ++ acc) []
      String.intercalate "\n" l5

/-!
Personal report (`PersonalReportFormatter.format_personal_report`,
src/utils.py lines 621-711).  The non-ASCII literals of src/utils.py are
stored double-encoded on disk; the embedding reproduces the exact
characters the interpreter reads from that file. -/

/-- The report-icon-and-bold prefix of the personal title. -/
def pIcon : String := "\u011f\u0178\u201c\u0160 <b>"

/-- The characters of the label between the user name and the title's
closing markup. -/
def pLabel : String := "\u00e5\u20ac\u2039\u00e4\u00ba\u00ba\u00e5\u00a0\u00b1\u00e8\u00a1\u00a8"

/-- The no-data suffix of the personal report. -/
def pNoData : String :=
  "</b>\n\n\u00e2\u0152 \u00e6\u0153\u00ac\u00e6\u0153\u02c6\u00e6\u0161\u00ab\u00e7\u201e\u00a1\u00e4\u00ba\u00a4\u00e6\u02dc\u201c\u00e8\u00a8\u02dc\u00e9\u0152\u201e"

/-- The separator line of the personal report. -/
def pSep : String :=
  "\u00ef\u00bc\u00ef\u00bc\u00ef\u00bc\u00ef\u00bc\u00ef\u00bc\u00ef\u00bc\u00ef\u00bc\u00ef\u00bc\u00ef\u00bc\u00ef\u00bc"

/-- The Primary-currency heading of the personal report. -/
def pTwHdr : String := "\u00e2\u2014\u2030 \u00e5\u00b0\u00e5\u00b9\u00a3\u00e6\u00a5\u00ad\u00e7\u00b8\u00be"

/-- The Secondary-currency heading of the personal report. -/
def pCnHdr : String :=
  "\u00e2\u2014\u2030 \u00e4\u00ba\u00ba\u00e6\u00b0\u2018\u00e5\u00b9\u00a3\u00e6\u00a5\u00ad\u00e7\u00b8\u00be"

/-- The arrow separator between local and settlement amounts. -/
def pArrow : String := " \u00e2\u2020\u2019 "

/-- The Secondary currency symbol as read from the file. -/
def pCnSym : String := "CN\u00c2\u00a5"

/-- The day-marker and bullet of a personal daily line. -/
def pDayMark : String := " (\u00e6\u2014\u00a5)</b> \u00e2\u20ac\u00a2 "

/-- The title line of the non-empty personal report. -/
def personalTitle (userName groupName : String) : String :=
  pIcon ++ userName ++ pLabel ++ " (" ++ groupName ++ ")</b>"

/-- `format_personal_report` (src/utils.py lines 621-711): income totals
per currency, constant rates 30 and 7, the fixed header block, then one
line per day with positive income, all passed through `fix_html_tags`
(the empty-input message is returned directly). -/
def formatPersonalReport (fmt : Fmt) (rows : List LRow)
    (userName groupName : String) : String :=
  if rows.isEmpty then pIcon ++ userName ++ pLabel ++ pNoData
  else
    let tot := rows.foldl
      (fun (acc : ℚ × ℚ) t =>
        if t.ttype == "income" then
          if t.currency == "TW" then (acc.1 + t.amount, acc.2)
          else if t.currency == "CN" then (acc.1, acc.2 + t.amount)
          else acc
        else acc) (0, 0)
    let twU : ℚ := if tot.1 > 0 then tot.1 / 30 else 0
    let cnU : ℚ := if tot.2 > 0 then tot.2 / 7 else 0
    let header : List String :=
      [ personalTitle userName groupName,
        pSep,
        pTwHdr,
        "<code>NT$" ++ fmt.f0 tot.1 ++ "</code>" ++ pArrow ++ "<code>USDT$" ++ fmt.f2 twU ++ "</code>",
        pCnHdr,
        "<code>" ++ pCnSym ++ fmt.f0 tot.2 ++ "</code>" ++ pArrow ++ "<code>USDT$" ++ fmt.f2 cnU ++ "</code>",
        pSep ]
    let daily := rows.foldl
      (fun (acc : List (DayKey × (ℚ × ℚ))) t =>
        match t.date with
        | none => acc
        | some dobj =>
          let k : DayKey := (dobj.m, dobj.d)
          let acc1 := if (dkGet k acc).isNone then acc ++ [(k, (0, 0))] else acc
          if t.ttype == "income" then
            if t.currency == "TW" then dkUpd k (fun p => (p.1 + t.amount, p.2)) acc1
            else if t.currency == "CN" then dkUpd k (fun p => (p.1, p.2 + t.amount)) acc1
            else acc1
          else acc1) []
    let dayLines := (sortKeys (daily.map (fun kv => kv.1))).foldr
      (fun k acc =>
        match dkGet k daily with
        | none => acc
        | some p =>
          if p.1 > 0 || p.2 > 0 then
            let parts :=
              (if p.1 > 0 then ["<code>NT$" ++ fmt.f0 p.1 ++ "</code>"] else []) ++
              (if p.2 > 0 then ["<code>" ++ pCnSym ++ fmt.f0 p.2 ++ "</code>"] else [])
            ("<b>" ++ keyStr k ++ pDayMark ++ String.intercalate " " parts) :: acc
          else acc) []
    String.mk (fixHtmlTags (String.intercalate "\n" (header ++ dayLines)).toList)

/-!
Chunk view of a string, used to reason about the sanitizer.  Every markup
pattern above starts with `<` and continues with `<`-free text, so a string
splits as a `<`-free prefix followed by chunks, each chunk being `<`
followed by a `<`-free run; all the sanitizer's rewrites act chunk-wise.
-/

/-- Rebuild a string from chunk contents (each chunk is the text after its
leading `<`). -/
def catChunks : List (List Char) → List Char
  | [] => []
  | c :: cs => ('<' :: c) ++ catChunks cs

/-- Split the part of a string that starts at a `<` into chunks. -/
def chunksOf : List Char → List (List Char)
  | [] => []
  | _ :: cs =>
    (cs.takeWhile (· ≠ '<')) ::
      (if _h : (cs.dropWhile (· ≠ '<')).length < cs.length + 1 then
        chunksOf (cs.dropWhile (· ≠ '<'))
      else [])
  termination_by s => s.length
  decreasing_by simpa [ne_eq, decide_not] using _h

/-- One case-normalisation rule on a chunk: rewrite the prefix `q` (the
pattern after `<`) to `r`. -/
def chunkFix (q r : List Char) (c : List Char) : List Char :=
  match delPre q c with
  | some t => r ++ t
  | none => c

/-- All 14 case-normalisation rules on one chunk, in source order. -/
def phi (c : List Char) : List Char :=
  caseQR.foldl (fun acc qr => chunkFix qr.1 qr.2 acc) c

/-- The doubled-open-tag repair on the chunk list: when two consecutive
chunks both start with `t>`, the second becomes a closing chunk `/t>...`
and scanning resumes after it. -/
def subCC (t : List Char) : List (List Char) → List (List Char)
  | [] => []
  | [c] => [c]
  | c1 :: c2 :: rest =>
    if (delPre (t ++ ['>']) c1).isSome && (delPre (t ++ ['>']) c2).isSome then
      c1 :: ('/' :: t ++ ['>'] ++ ((delPre (t ++ ['>']) c2).getD [])) :: subCC t rest
    else c1 :: subCC t (c2 :: rest)

/-- The whole sanitizer on the chunk list. -/
def fixChunks (cs : List (List Char)) : List (List Char) :=
  [tagB, tagCode, tagStrong, tagI].foldl (fun acc t => subCC t acc) (cs.map phi)

/-- No two consecutive chunks both start with `t>` (the shape `subCC`
establishes and preserves). -/
def noAdj (t : List Char) : List (List Char) → Prop
  | c1 :: c2 :: rest =>
    ¬((delPre (t ++ ['>']) c1).isSome = true ∧ (delPre (t ++ ['>']) c2).isSome = true) ∧
      noAdj t (c2 :: rest)
  | _ => True

/-- What one pass of the repair for tag `t` does to a single chunk: leave
it alone, or — when it starts with the opening tag `t>` — turn that
opening tag into the closing tag `/t>`, keeping the rest verbatim. -/
def relClose (t : List Char) (c c1 : List Char) : Prop :=
  c1 = c ∨ ∃ u, c = (t ++ ['>']) ++ u ∧ c1 = '/' :: t ++ ['>'] ++ u

/-- What the whole sanitizer does to a single chunk (the text between one
`<` and the next): leave it alone, rewrite its leading tag spelling by one
of the 14 case-normalisation rules, close a doubled opening tag, or do the
two in sequence — in every case the text after the tag spelling, the plain
text content between tags, is preserved verbatim. -/
def chunkRel (c c1 : List Char) : Prop :=
  c1 = c ∨
  (∃ qr ∈ caseQR, ∃ u, c = qr.1 ++ u ∧ c1 = qr.2 ++ u) ∨
  (∃ t ∈ [tagB, tagCode, tagStrong, tagI], ∃ u,
    c = (t ++ ['>']) ++ u ∧ c1 = '/' :: t ++ ['>'] ++ u) ∨
  (∃ qr ∈ caseQR, ∃ t ∈ [tagB, tagCode, tagStrong, tagI], ∃ u,
    c = qr.1 ++ u ∧ qr.2 = t ++ ['>'] ∧ c1 = '/' :: t ++ ['>'] ++ u)

/-!
Theorems.  First the parser lemmas and the parser claims, then the store
claims, the aggregation claims, and finally the sanitizer claims.
-/

/-- A successful `re.search` has a successful match at some position. -/
theorem search_some {α : Type} (m : List Char → Option α) (l : List Char) (v : α)
    (h : search m l = some v) : ∃ s, m s = some v := by
  induction l with
  | nil => exact ⟨[], h⟩
  | cons c cs ih =>
    rw [search] at h
    cases hm : m (c :: cs) with
    | some w =>
      rw [hm] at h
      exact ⟨c :: cs, by rw [hm]; exact h⟩
    | none =>
      rw [hm] at h
      exact ih h

/-- The value matched by the unsigned number pattern is nonnegative. -/
theorem mNumU_nonneg (s : List Char) (v : ℚ) (r : List Char)
    (h : mNumU s = some (v, r)) : 0 ≤ v := by
  unfold mNumU at h
  dsimp only at h
  split at h
  · exact absurd h (by simp)
  · split at h
    · split at h
      · cases h
        positivity
      · cases h
        positivity
    · cases h
      positivity

/-- The first-loop result always stores the absolute value. -/
theorem loop1Result_amount_nonneg (ck tk : String) (tLit : List Char) (v : ℚ)
    (text : List Char) : 0 ≤ (loop1Result ck tk tLit v text).2.1 := by
  unfold loop1Result
  split
  · exact abs_nonneg _
  · exact abs_nonneg _

/-- A first-loop match stores a nonnegative amount. -/
theorem runLoop1_nonneg (t : List Char) (out : String × ℚ × String)
    (h : runLoop1 t = some out) : 0 ≤ out.2.1 := by
  unfold runLoop1 at h
  split at h
  · cases h; exact loop1Result_amount_nonneg ..
  · split at h
    · cases h; exact loop1Result_amount_nonneg ..
    · split at h
      · cases h; exact loop1Result_amount_nonneg ..
      · split at h
        · cases h; exact loop1Result_amount_nonneg ..
        · exact absurd h (by simp)

/-- A bare currency+amount match carries the (nonnegative) matched value. -/
theorem mCurrBare_nonneg (mc : List Char → Option (List Char)) (s : List Char)
    (v : ℚ) (r : List Char) (h : mCurrBare mc s = some (v, r)) : 0 ≤ v := by
  unfold mCurrBare at h
  split at h
  · exact absurd h (by simp)
  · exact mNumU_nonneg _ _ _ h

/-- A second-loop match stores a nonnegative amount. -/
theorem runLoop2_nonneg (t : List Char) (out : String × ℚ × String)
    (h : runLoop2 t = some out) : 0 ≤ out.2.1 := by
  unfold runLoop2 at h
  split at h
  · rename_i v rest hs
    cases h
    obtain ⟨s, hm⟩ := search_some _ _ _ hs
    exact mCurrBare_nonneg _ _ _ _ hm
  · split at h
    · rename_i v rest hs
      cases h
      obtain ⟨s, hm⟩ := search_some _ _ _ hs
      exact mCurrBare_nonneg _ _ _ _ hm
    · exact absurd h (by simp)

/-- A third-branch match is always an expense. -/
theorem runLoop3_ttype (t : List Char) (out : String × ℚ × String)
    (h : runLoop3 t = some out) : out.2.2 = "expense" := by
  unfold runLoop3 at h
  split at h
  · cases h; rfl
  · exact absurd h (by simp)

/-- Every successful parse takes its date from the date step, today when
that found nothing. -/
theorem parse_date_shape (input : List Char) (today : PDate) (tx : ParsedTx)
    (hp : parseTransaction input today = some tx) :
    tx.date = (dateStep today (splitMention (pyStrip input)).2).1.getD today := by
  unfold parseTransaction at hp
  dsimp only at hp
  split at hp
  · cases hp; rfl
  · split at hp
    · cases hp; rfl
    · split at hp
      · cases hp; rfl
      · exact absurd hp (by simp)

/-- C3 (amended): an input with no recognisable date token still parses;
the transaction is then dated `today` rather than rejected. -/
theorem parse_no_date_defaults_today (input : List Char) (today : PDate)
    (tx : ParsedTx)
    (hd : (dateStep today (splitMention (pyStrip input)).2).1 = none)
    (hp : parseTransaction input today = some tx) : tx.date = today := by
  rw [parse_date_shape input today tx hp, hd]
  rfl

/-- Witness for `parse_no_date_defaults_today`: the dateless input
`TW500` parses and is dated today. -/
theorem parse_no_date_defaults_today_witness :
    (⟨none, ⟨2025, 6, 15⟩, "TW", 500, "income"⟩ : ParsedTx).date = ⟨2025, 6, 15⟩ := by
  exact parse_no_date_defaults_today (("TW500").toList) ⟨2025, 6, 15⟩ _ rfl rfl

/-- C3 (counterexample): `TW500` contains a currency-and-amount token and
no date token, yet `parse_transaction` succeeds (dated today) instead of
returning no match. -/
theorem parse_no_date_counterexample :
    (dateStep ⟨2025, 6, 15⟩ (splitMention (pyStrip (("TW500").toList))).2).1 = none ∧
      parseTransaction (("TW500").toList) ⟨2025, 6, 15⟩ =
        some ⟨none, ⟨2025, 6, 15⟩, "TW", 500, "income"⟩ :=
  ⟨rfl, rfl⟩

/-- C4 (amended): the sign/kind relation the code actually maintains: a
parse that yields kind Income has a nonnegative amount, and any negative
amount comes with kind Expense (the bare-negative fallback stores the
negated value; amounts are not always strictly positive). -/
theorem parse_sign_kind (input : List Char) (today : PDate) (tx : ParsedTx)
    (hp : parseTransaction input today = some tx) :
    (tx.ttype = "income" → 0 ≤ tx.amount) ∧ (tx.amount < 0 → tx.ttype = "expense") := by
  unfold parseTransaction at hp
  dsimp only at hp
  split at hp
  · rename_i out h1
    cases hp
    have hnn := runLoop1_nonneg _ _ h1
    exact ⟨fun _ => hnn, fun hlt => absurd hlt (not_lt.2 hnn)⟩
  · split at hp
    · rename_i out h2
      cases hp
      have hnn := runLoop2_nonneg _ _ h2
      exact ⟨fun _ => hnn, fun hlt => absurd hlt (not_lt.2 hnn)⟩
    · split at hp
      · rename_i ck amt tt h3
        cases hp
        have het : tt = "expense" := runLoop3_ttype _ _ h3
        subst het
        exact ⟨fun hin => absurd hin (by simp), fun _ => rfl⟩
      · exact absurd hp (by simp)

/-- Witness for `parse_sign_kind` at the input `TW500`. -/
theorem parse_sign_kind_witness : (0 : ℚ) ≤ 500 := by
  have h := parse_sign_kind (("TW500").toList) ⟨2025, 6, 15⟩
    ⟨none, ⟨2025, 6, 15⟩, "TW", 500, "income"⟩ rfl
  exact h.1 rfl

/-- C4 (counterexample): the bare negative input `-500` parses with a
negative stored amount, refuting `amount > 0` for every successful parse;
the handler passes this amount to `add_transaction` unchanged. -/
theorem parse_negative_amount_counterexample :
    (parseTransaction (("-500").toList) ⟨2025, 6, 15⟩).map ParsedTx.amount =
        some (-500) ∧ (-500 : ℚ) < 0 :=
  ⟨rfl, by norm_num⟩

/-- C10: a bare negative number with no currency token at all still
parses: `-500` yields currency TW (the documented fallback default), kind
expense, and the negative value itself as the stored amount. -/
theorem parse_bare_negative_defaults (today : PDate) :
    parseTransaction (("-500").toList) today =
      some ⟨none, today, "TW", -500, "expense"⟩ := rfl

/-- C2 (code evaluation): a bare `CN500` parses as Income 500 — the
first-loop pattern with its optional sign matches first, so the
default-direction branch (source lines 159-180), whose own comment says
`assume expense for CN`, is unreachable; `TW500` parses as Income 500 as
documented. -/
theorem parse_cn500_income (today : PDate) :
    parseTransaction (("CN500").toList) today =
        some ⟨none, today, "CN", 500, "income"⟩ ∧
      parseTransaction (("TW500").toList) today =
        some ⟨none, today, "TW", 500, "income"⟩ :=
  ⟨rfl, rfl⟩

/-!
Store theorems (C9, C5, C6).
-/

/-- A filter that keeps everything keeps the length; dropping something
shortens the list.  Stated for the delete's keep-predicate. -/
theorem filter_length_lt_iff (p : TxRow → Bool) (l : List TxRow) :
    (l.filter p).length < l.length ↔ ∃ t ∈ l, p t = false := by
  induction l with
  | nil => simp
  | cons x xs ih =>
    cases hx : p x with
    | true =>
      simp only [List.filter_cons, hx, if_pos, List.length_cons]
      constructor
      · intro h
        obtain ⟨t, ht, hpt⟩ := ih.1 (by omega)
        exact ⟨t, List.mem_cons_of_mem _ ht, hpt⟩
      · intro ⟨t, ht, hpt⟩
        rcases List.mem_cons.1 ht with rfl | hmem
        · rw [hx] at hpt; cases hpt
        · have := ih.2 ⟨t, hmem, hpt⟩
          simpa using Nat.succ_lt_succ this
    | false =>
      simp only [List.filter_cons, hx, List.length_cons]
      constructor
      · intro _
        exact ⟨x, List.mem_cons_self x xs, hx⟩
      · intro _
        exact Nat.lt_succ_of_le (List.length_filter_le p xs)

/-- C9: `delete_transaction` returns true exactly when at least one stored
row matches all four fields (all such rows are removed); when nothing
matches it reports not-found (false) and the store is unchanged. -/
theorem deleteTransaction_found_iff (store : List TxRow) (uid : Int) (d : PDate)
    (c : String) (a : ℚ) :
    ((deleteTransaction store uid d c a).1 = true ↔
        ∃ t ∈ store, txMatches uid d c a t = true) ∧
      ((¬ ∃ t ∈ store, txMatches uid d c a t = true) →
        (deleteTransaction store uid d c a) = (false, store)) := by
  constructor
  · unfold deleteTransaction
    simp only [decide_eq_true_eq]
    rw [filter_length_lt_iff]
    constructor
    · intro ⟨t, ht, hpt⟩
      refine ⟨t, ht, ?_⟩
      simpa using hpt
    · intro ⟨t, ht, hpt⟩
      refine ⟨t, ht, ?_⟩
      simpa using hpt
  · intro hno
    unfold deleteTransaction
    have hall : store.filter (fun t => !(txMatches uid d c a t)) = store := by
      apply List.filter_eq_self.2
      intro t ht
      simp only [Bool.not_eq_true']
      by_contra hm
      exact hno ⟨t, ht, by simpa using hm⟩
    rw [hall]
    simp

/-- Witness for `deleteTransaction_found_iff`: deleting a non-stored
combination from a one-row store returns false and leaves the row. -/
theorem deleteTransaction_found_iff_witness :
    deleteTransaction [⟨7, ⟨2025, 6, 1⟩, "TW", 500, "income"⟩] 7 ⟨2025, 6, 2⟩ "TW" 500 =
      (false, [⟨7, ⟨2025, 6, 1⟩, "TW", 500, "income"⟩]) := by
  exact (deleteTransaction_found_iff _ 7 ⟨2025, 6, 2⟩ "TW" 500).2 (by decide)

/-- `leb` is reflexive. -/
theorem PDate.leb_refl (a : PDate) : a.leb a = true := by
  simp [PDate.leb]

/-- `leb` is transitive. -/
theorem PDate.leb_trans (a b c : PDate) (h1 : a.leb b = true)
    (h2 : b.leb c = true) : a.leb c = true := by
  simp only [PDate.leb, Bool.or_eq_true, Bool.and_eq_true, decide_eq_true_eq,
    beq_iff_eq] at h1 h2 ⊢
  omega

/-- `ltb` implies `leb`. -/
theorem PDate.leb_of_ltb (a b : PDate) (h : a.ltb b = true) : a.leb b = true := by
  simp only [PDate.ltb, PDate.leb, Bool.or_eq_true, Bool.and_eq_true,
    decide_eq_true_eq, beq_iff_eq] at h ⊢
  omega

/-- Totality: not strictly later means at or before. -/
theorem PDate.leb_of_not_ltb (a b : PDate) (h : ¬ a.ltb b = true) :
    b.leb a = true := by
  simp only [PDate.ltb, Bool.or_eq_true, Bool.and_eq_true, decide_eq_true_eq,
    beq_iff_eq, not_or, not_and] at h
  simp only [PDate.leb, Bool.or_eq_true, Bool.and_eq_true, decide_eq_true_eq,
    beq_iff_eq]
  omega

/-- The max-selection fold only returns the seed or a list element. -/
theorem pickLater_mem (l : List RateRow) (acc : Option RateRow) (b : RateRow)
    (h : l.foldl pickLater acc = some b) : acc = some b ∨ b ∈ l := by
  induction l generalizing acc with
  | nil => exact Or.inl h
  | cons x xs ih =>
    rcases ih (pickLater acc x) h with hpick | hmem
    · cases acc with
      | none =>
        simp only [pickLater] at hpick
        cases hpick
        exact Or.inr (List.mem_cons_self _ _)
      | some a =>
        simp only [pickLater] at hpick
        split at hpick
        · cases hpick
          exact Or.inr (List.mem_cons_self _ _)
        · exact Or.inl hpick
    · exact Or.inr (List.mem_cons_of_mem _ hmem)

/-- The max-selection fold returns a row at or after the seed and every
list element. -/
theorem pickLater_max (l : List RateRow) (acc : Option RateRow) (b : RateRow)
    (h : l.foldl pickLater acc = some b) :
    (∀ a, acc = some a → a.date.leb b.date = true) ∧
      ∀ x ∈ l, x.date.leb b.date = true := by
  induction l generalizing acc with
  | nil =>
    cases h
    exact ⟨fun a ha => by cases ha; exact PDate.leb_refl _, by simp⟩
  | cons x xs ih =>
    obtain ⟨ih1, ih2⟩ := ih (pickLater acc x) h
    have hx : x.date.leb b.date = true := by
      cases acc with
      | none => exact ih1 x (by simp [pickLater])
      | some a =>
        by_cases hlt : a.date.ltb x.date = true
        · exact ih1 x (by simp [pickLater, hlt])
        · have ha : a.date.leb b.date = true := ih1 a (by simp [pickLater, hlt])
          exact PDate.leb_trans _ _ _ (PDate.leb_of_not_ltb _ _ hlt) ha
    refine ⟨fun a ha => ?_, fun y hy => ?_⟩
    · subst ha
      by_cases hlt : a.date.ltb x.date = true
      · exact PDate.leb_trans _ _ _ (PDate.leb_of_ltb _ _ hlt) hx
      · exact ih1 a (by simp [pickLater, hlt])
    · rcases List.mem_cons.1 hy with rfl | hmem
      · exact hx
      · exact ih2 y hmem

/-- C5 (amended): `get_exchange_rate` returns the rate of the stored row
with the latest effective date at or before the target (never a future
rate); with rates May 1 → 30 and May 15 → 31 it returns 31 for May 20,
and for April 1, with no earlier rate, it returns None — the fallback
constants live in the callers (`get_latest_exchange_rates`), not here. -/
theorem getExchangeRate_latest_at_or_before :
    (∀ (store : List RateRow) (target : PDate) (curr : String) (r : ℚ),
      getExchangeRate store target curr = some r →
        ∃ row ∈ store, row.currency = curr ∧ row.date.leb target = true ∧
          row.rate = r ∧
          ∀ row2 ∈ store, row2.currency = curr → row2.date.leb target = true →
            row2.date.leb row.date = true) ∧
      getExchangeRate demoRates ⟨2025, 5, 20⟩ "TW" = some 31 ∧
      getExchangeRate demoRates ⟨2025, 4, 1⟩ "TW" = none := by
  refine ⟨?_, rfl, rfl⟩
  intro store target curr r h
  unfold getExchangeRate at h
  cases hf : (store.filter (fun r => r.date.leb target && r.currency == curr)).foldl
      pickLater none with
  | none => rw [hf] at h; cases h
  | some b =>
    rw [hf] at h
    cases h
    have hmem : b ∈ store.filter (fun r => r.date.leb target && r.currency == curr) := by
      rcases pickLater_mem _ _ _ hf with hseed | hmem
      · cases hseed
      · exact hmem
    have hb := List.mem_filter.1 hmem
    have hcond := hb.2
    simp only [Bool.and_eq_true, beq_iff_eq] at hcond
    refine ⟨b, hb.1, hcond.2, hcond.1, rfl, ?_⟩
    intro row2 hrow2 hc2 hd2
    have hmem2 : row2 ∈ store.filter (fun r => r.date.leb target && r.currency == curr) :=
      List.mem_filter.2 ⟨hrow2, by simp [hd2, hc2]⟩
    exact (pickLater_max _ _ _ hf).2 row2 hmem2

/-- Witness for `getExchangeRate_latest_at_or_before`: the May 20 lookup
returns the May 15 row's rate, which is maximal among rows at or before
May 20. -/
theorem getExchangeRate_latest_witness :
    ∃ row ∈ demoRates, row.currency = "TW" ∧ row.date.leb ⟨2025, 5, 20⟩ = true ∧
      row.rate = 31 ∧
      ∀ row2 ∈ demoRates, row2.currency = "TW" →
        row2.date.leb ⟨2025, 5, 20⟩ = true → row2.date.leb row.date = true := by
  exact getExchangeRate_latest_at_or_before.1 demoRates ⟨2025, 5, 20⟩ "TW" 31
    getExchangeRate_latest_at_or_before.2.1

/-- C5 (counterexample): for April 1 with no earlier stored rate,
`get_exchange_rate` returns None, not the documented Primary fallback
constant 30.0. -/
theorem getExchangeRate_no_fallback_counterexample :
    getExchangeRate demoRates ⟨2025, 4, 1⟩ "TW" = none ∧
      getExchangeRate demoRates ⟨2025, 4, 1⟩ "TW" ≠ some 30 :=
  ⟨rfl, by decide⟩

/-- Setting a key makes it present. -/
theorem alGet_alSet_self (k : String) (v : ℚ) (l : List (String × ℚ)) :
    alGet k (alSet k v l) = some v := by
  induction l with
  | nil => simp [alSet, alGet]
  | cons kv rest ih =>
    by_cases hk : kv.1 = k
    · simp [alSet, alGet, hk]
    · simp only [alSet, alGet, hk, if_false]
      exact ih

/-- Setting one key leaves another key's lookup unchanged. -/
theorem alGet_alSet_other (k k2 : String) (v : ℚ) (l : List (String × ℚ))
    (hne : k2 ≠ k) : alGet k2 (alSet k v l) = alGet k2 l := by
  induction l with
  | nil =>
    simp only [alSet, alGet]
    rw [if_neg (fun h => hne h.symm)]
  | cons kv rest ih =>
    obtain ⟨k1, v1⟩ := kv
    by_cases hk : k1 = k
    · subst hk
      simp only [alSet, if_pos rfl, alGet]
      rw [if_neg (fun h => hne h.symm), if_neg (fun h => hne h.symm)]
    · simp only [alSet, if_neg hk, alGet]
      by_cases hk2 : k1 = k2
      · simp [hk2]
      · simp [hk2, ih]

/-- An option that is not none is some. -/
theorem isSome_of_not_isNone {α : Type} (o : Option α) (h : ¬ o.isNone = true) :
    o.isSome = true := by
  cases o <;> simp_all

/-- The defaults phase always yields a TWD entry. -/
theorem ensureDefaults_TWD (l : List (String × ℚ)) :
    (alGet "TWD" (ensureDefaults l)).isSome = true := by
  by_cases ht : (alGet "TWD" l).isNone = true
  · have hl3 : (if (alGet "TWD" l).isNone = true then alSet "TWD" 30 l else l) =
        alSet "TWD" 30 l := if_pos ht
    unfold ensureDefaults
    dsimp only
    rw [hl3]
    by_cases hc : (alGet "CNY" (alSet "TWD" 30 l)).isNone = true
    · rw [if_pos hc, alGet_alSet_other "CNY" "TWD" 7 _ (by decide), alGet_alSet_self]
      rfl
    · rw [if_neg hc, alGet_alSet_self]
      rfl
  · have hl3 : (if (alGet "TWD" l).isNone = true then alSet "TWD" 30 l else l) = l :=
      if_neg ht
    unfold ensureDefaults
    dsimp only
    rw [hl3]
    by_cases hc : (alGet "CNY" l).isNone = true
    · rw [if_pos hc, alGet_alSet_other "CNY" "TWD" 7 _ (by decide)]
      exact isSome_of_not_isNone _ ht
    · rw [if_neg hc]
      exact isSome_of_not_isNone _ ht

/-- The defaults phase always yields a CNY entry. -/
theorem ensureDefaults_CNY (l : List (String × ℚ)) :
    (alGet "CNY" (ensureDefaults l)).isSome = true := by
  by_cases ht : (alGet "TWD" l).isNone = true
  · have hl3 : (if (alGet "TWD" l).isNone = true then alSet "TWD" 30 l else l) =
        alSet "TWD" 30 l := if_pos ht
    unfold ensureDefaults
    dsimp only
    rw [hl3]
    by_cases hc : (alGet "CNY" (alSet "TWD" 30 l)).isNone = true
    · rw [if_pos hc, alGet_alSet_self]
      rfl
    · rw [if_neg hc]
      exact isSome_of_not_isNone _ hc
  · have hl3 : (if (alGet "TWD" l).isNone = true then alSet "TWD" 30 l else l) = l :=
      if_neg ht
    unfold ensureDefaults
    dsimp only
    rw [hl3]
    by_cases hc : (alGet "CNY" l).isNone = true
    · rw [if_pos hc, alGet_alSet_self]
      rfl
    · rw [if_neg hc]
      exact isSome_of_not_isNone _ hc

/-- A missing TWD entry is filled with the constant 30. -/
theorem ensureDefaults_TWD_fallback (l : List (String × ℚ))
    (h : alGet "TWD" l = none) : alGet "TWD" (ensureDefaults l) = some 30 := by
  have hl3 : (if (alGet "TWD" l).isNone = true then alSet "TWD" 30 l else l) =
      alSet "TWD" 30 l := if_pos (by simp [h])
  unfold ensureDefaults
  dsimp only
  rw [hl3]
  by_cases hc : (alGet "CNY" (alSet "TWD" 30 l)).isNone = true
  · rw [if_pos hc, alGet_alSet_other "CNY" "TWD" 7 _ (by decide), alGet_alSet_self]
  · rw [if_neg hc, alGet_alSet_self]

/-- A missing CNY entry is filled with the constant 7. -/
theorem ensureDefaults_CNY_fallback (l : List (String × ℚ))
    (h : alGet "CNY" l = none) : alGet "CNY" (ensureDefaults l) = some 7 := by
  by_cases ht : (alGet "TWD" l).isNone = true
  · have hl3 : (if (alGet "TWD" l).isNone = true then alSet "TWD" 30 l else l) =
        alSet "TWD" 30 l := if_pos ht
    have hcn : alGet "CNY" (alSet "TWD" 30 l) = none := by
      rw [alGet_alSet_other "TWD" "CNY" 30 l (by decide)]
      exact h
    unfold ensureDefaults
    dsimp only
    rw [hl3, if_pos (by simp [hcn]), alGet_alSet_self]
  · have hl3 : (if (alGet "TWD" l).isNone = true then alSet "TWD" 30 l else l) = l :=
      if_neg ht
    unfold ensureDefaults
    dsimp only
    rw [hl3, if_pos (by simp [h]), alGet_alSet_self]

/-- Members of an insertion are the inserted row or old members. -/
theorem insertDesc_mem (r y : RateRow) (l : List RateRow)
    (h : y ∈ insertDesc r l) : y = r ∨ y ∈ l := by
  induction l with
  | nil => simpa [insertDesc] using h
  | cons x xs ih =>
    unfold insertDesc at h
    split at h
    · rcases List.mem_cons.1 h with rfl | hrest
      · exact Or.inl rfl
      · exact Or.inr hrest
    · rcases List.mem_cons.1 h with rfl | hrest
      · exact Or.inr (List.mem_cons_self _ _)
      · rcases ih hrest with rfl | hxs
        · exact Or.inl rfl
        · exact Or.inr (List.mem_cons_of_mem _ hxs)

/-- Members of the date-descending sort come from the original list. -/
theorem sortDesc_mem (l : List RateRow) (y : RateRow) (h : y ∈ sortDesc l) :
    y ∈ l := by
  induction l with
  | nil => simp [sortDesc] at h
  | cons x xs ih =>
    unfold sortDesc at h
    simp only [List.foldr_cons] at h
    rcases insertDesc_mem _ _ _ h with rfl | hrest
    · exact List.mem_cons_self _ _
    · exact List.mem_cons_of_mem _ (ih hrest)

/-- The exact-date fold never creates a TWD entry when no store row has
currency TW or TWD (rows of other currencies keep their own keys). -/
theorem fold1_no_TWD (l : List RateRow) (acc : List (String × ℚ))
    (hl : ∀ r ∈ l, r.currency ≠ "TW" ∧ r.currency ≠ "TWD") :
    alGet "TWD"
        (l.foldl (fun acc r =>
          if r.currency == "TW" then alSet "TWD" r.rate acc
          else if r.currency == "CN" then alSet "CNY" r.rate acc
          else alSet r.currency r.rate acc) acc) =
      alGet "TWD" acc := by
  induction l generalizing acc with
  | nil => rfl
  | cons x xs ih =>
    have hx := hl x (List.mem_cons_self _ _)
    have hxs : ∀ r ∈ xs, r.currency ≠ "TW" ∧ r.currency ≠ "TWD" :=
      fun r hr => hl r (List.mem_cons_of_mem _ hr)
    simp only [List.foldl_cons]
    rw [ih _ hxs]
    have h1 : (x.currency == "TW") = false := by
      simp only [beq_eq_false_iff_ne, ne_eq]
      exact hx.1
    rw [h1]
    simp only [Bool.false_eq_true, if_false]
    by_cases h2 : x.currency == "CN"
    · rw [if_pos h2]
      exact alGet_alSet_other _ _ _ _ (by decide)
    · rw [if_neg h2]
      exact alGet_alSet_other _ _ _ _ (fun h => hx.2 h.symm)

/-- The fallback fold never creates a TWD entry when no row has currency
TW. -/
theorem fold2_no_TWD (l : List RateRow) (acc : List (String × ℚ))
    (hl : ∀ r ∈ l, r.currency ≠ "TW") :
    alGet "TWD"
        (l.foldl (fun acc r =>
          if r.currency == "TW" && (alGet "TWD" acc).isNone then
            alSet "TWD" r.rate acc
          else if r.currency == "CN" && (alGet "CNY" acc).isNone then
            alSet "CNY" r.rate acc
          else acc) acc) =
      alGet "TWD" acc := by
  induction l generalizing acc with
  | nil => rfl
  | cons x xs ih =>
    have hx := hl x (List.mem_cons_self _ _)
    have hxs : ∀ r ∈ xs, r.currency ≠ "TW" := fun r hr => hl r (List.mem_cons_of_mem _ hr)
    simp only [List.foldl_cons]
    rw [ih _ hxs]
    have h1 : (x.currency == "TW") = false := by
      simp only [beq_eq_false_iff_ne, ne_eq]
      exact hx
    rw [h1]
    simp only [Bool.false_and, Bool.false_eq_true, if_false]
    by_cases h2 : (x.currency == "CN" && (alGet "CNY" acc).isNone) = true
    · rw [if_pos h2]
      exact alGet_alSet_other _ _ _ _ (by decide)
    · rw [if_neg h2]

/-- The exact-date fold never creates a CNY entry when no store row has
currency CN or CNY. -/
theorem fold1_no_CNY (l : List RateRow) (acc : List (String × ℚ))
    (hl : ∀ r ∈ l, r.currency ≠ "CN" ∧ r.currency ≠ "CNY") :
    alGet "CNY"
        (l.foldl (fun acc r =>
          if r.currency == "TW" then alSet "TWD" r.rate acc
          else if r.currency == "CN" then alSet "CNY" r.rate acc
          else alSet r.currency r.rate acc) acc) =
      alGet "CNY" acc := by
  induction l generalizing acc with
  | nil => rfl
  | cons x xs ih =>
    have hx := hl x (List.mem_cons_self _ _)
    have hxs : ∀ r ∈ xs, r.currency ≠ "CN" ∧ r.currency ≠ "CNY" :=
      fun r hr => hl r (List.mem_cons_of_mem _ hr)
    simp only [List.foldl_cons]
    rw [ih _ hxs]
    by_cases h1 : x.currency == "TW"
    · rw [if_pos h1]
      exact alGet_alSet_other _ _ _ _ (by decide)
    · rw [if_neg h1]
      have h2 : (x.currency == "CN") = false := by
        simp only [beq_eq_false_iff_ne, ne_eq]
        exact hx.1
      rw [h2]
      simp only [Bool.false_eq_true, if_false]
      exact alGet_alSet_other _ _ _ _ (fun h => hx.2 h.symm)

/-- The fallback fold never creates a CNY entry when no row has currency
CN. -/
theorem fold2_no_CNY (l : List RateRow) (acc : List (String × ℚ))
    (hl : ∀ r ∈ l, r.currency ≠ "CN") :
    alGet "CNY"
        (l.foldl (fun acc r =>
          if r.currency == "TW" && (alGet "TWD" acc).isNone then
            alSet "TWD" r.rate acc
          else if r.currency == "CN" && (alGet "CNY" acc).isNone then
            alSet "CNY" r.rate acc
          else acc) acc) =
      alGet "CNY" acc := by
  induction l generalizing acc with
  | nil => rfl
  | cons x xs ih =>
    have hx := hl x (List.mem_cons_self _ _)
    have hxs : ∀ r ∈ xs, r.currency ≠ "CN" := fun r hr => hl r (List.mem_cons_of_mem _ hr)
    simp only [List.foldl_cons]
    rw [ih _ hxs]
    by_cases h1 : (x.currency == "TW" && (alGet "TWD" acc).isNone) = true
    · rw [if_pos h1]
      exact alGet_alSet_other _ _ _ _ (by decide)
    · rw [if_neg h1]
      have h2 : (x.currency == "CN") = false := by
        simp only [beq_eq_false_iff_ne, ne_eq]
        exact hx
      rw [h2]
      simp only [Bool.false_and, Bool.false_eq_true, if_false]

/-- The first phase has no TWD entry when the store has no TW/TWD rows. -/
theorem ratesPhase1_no_TWD (store : List RateRow) (target : PDate)
    (hno : ∀ r ∈ store, r.currency ≠ "TW" ∧ r.currency ≠ "TWD") :
    alGet "TWD" (ratesPhase1 store target) = none := by
  unfold ratesPhase1
  rw [fold1_no_TWD]
  · rfl
  · exact fun r hr => hno r (List.mem_filter.1 hr).1

/-- The second phase has no TWD entry when the store has no TW rows. -/
theorem ratesPhase2_no_TWD (store : List RateRow) (target : PDate)
    (l : List (String × ℚ)) (hl : alGet "TWD" l = none)
    (hno : ∀ r ∈ store, r.currency ≠ "TW") :
    alGet "TWD" (ratesPhase2 store target l) = none := by
  unfold ratesPhase2
  split
  · rw [fold2_no_TWD]
    · exact hl
    · intro r hr
      exact hno r (List.mem_filter.1 (sortDesc_mem _ _ ((List.take_sublist _ _).mem hr))).1
  · exact hl

/-- The first phase has no CNY entry when the store has no CN/CNY rows. -/
theorem ratesPhase1_no_CNY (store : List RateRow) (target : PDate)
    (hno : ∀ r ∈ store, r.currency ≠ "CN" ∧ r.currency ≠ "CNY") :
    alGet "CNY" (ratesPhase1 store target) = none := by
  unfold ratesPhase1
  rw [fold1_no_CNY]
  · rfl
  · exact fun r hr => hno r (List.mem_filter.1 hr).1

/-- The second phase has no CNY entry when the store has no CN rows. -/
theorem ratesPhase2_no_CNY (store : List RateRow) (target : PDate)
    (l : List (String × ℚ)) (hl : alGet "CNY" l = none)
    (hno : ∀ r ∈ store, r.currency ≠ "CN") :
    alGet "CNY" (ratesPhase2 store target l) = none := by
  unfold ratesPhase2
  split
  · rw [fold2_no_CNY]
    · exact hl
    · intro r hr
      exact hno r (List.mem_filter.1 (sortDesc_mem _ _ ((List.take_sublist _ _).mem hr))).1
  · exact hl

/-- C6: `get_latest_exchange_rates` always returns both currency keys, for
every store, target date, and even a failing store; missing rates are
filled with the fallback constants 30.0 (TWD) and 7.0 (CNY), and both the
failing-store and empty-store cases return exactly the fallback mapping. -/
theorem getLatestExchangeRates_total (store : List RateRow) (dbFail : Bool)
    (target : PDate) :
    ((alGet "TWD" (getLatestExchangeRates store dbFail target)).isSome ∧
      (alGet "CNY" (getLatestExchangeRates store dbFail target)).isSome) ∧
      (dbFail = true →
        getLatestExchangeRates store dbFail target = [("TWD", 30), ("CNY", 7)]) ∧
      (store = [] →
        getLatestExchangeRates store dbFail target = [("TWD", 30), ("CNY", 7)]) ∧
      ((∀ r ∈ store, r.currency ≠ "TW" ∧ r.currency ≠ "TWD") →
        alGet "TWD" (getLatestExchangeRates store dbFail target) = some 30) ∧
      ((∀ r ∈ store, r.currency ≠ "CN" ∧ r.currency ≠ "CNY") →
        alGet "CNY" (getLatestExchangeRates store dbFail target) = some 7) := by
  cases dbFail with
  | true =>
    exact ⟨⟨rfl, rfl⟩, fun _ => rfl, fun _ => rfl, fun _ => rfl, fun _ => rfl⟩
  | false =>
    have hmain : getLatestExchangeRates store false target =
        ensureDefaults (ratesPhase2 store target (ratesPhase1 store target)) := rfl
    rw [hmain]
    refine ⟨⟨ensureDefaults_TWD _, ensureDefaults_CNY _⟩,
      fun h => absurd h (by decide), fun hs => by subst hs; rfl, ?_, ?_⟩
    · intro hno
      exact ensureDefaults_TWD_fallback _
        (ratesPhase2_no_TWD _ _ _ (ratesPhase1_no_TWD _ _ hno)
          (fun r hr => (hno r hr).1))
    · intro hno
      exact ensureDefaults_CNY_fallback _
        (ratesPhase2_no_CNY _ _ _ (ratesPhase1_no_CNY _ _ hno)
          (fun r hr => (hno r hr).1))

/-- Witness for `getLatestExchangeRates_total` at a concrete store with a
single CN rate: TWD falls back to 30 while CNY is served. -/
theorem getLatestExchangeRates_total_witness :
    alGet "TWD" (getLatestExchangeRates [⟨⟨2025, 5, 1⟩, "CN", 8⟩] false ⟨2025, 5, 2⟩) =
      some 30 := by
  exact (getLatestExchangeRates_total [⟨⟨2025, 5, 1⟩, "CN", 8⟩] false
    ⟨2025, 5, 2⟩).2.2.2.1 (by decide)

/-!
Report theorems (C7, C1).
-/

/-- A string whose left part has characters is not empty. -/
theorem append_ne_empty_of_left (a b : String) (ha : a.data ≠ []) : a ++ b ≠ "" := by
  intro h
  apply ha
  have hd := congrArg String.data h
  rw [String.data_append] at hd
  exact (List.append_eq_nil.1 hd).1

/-- The group title has characters. -/
theorem groupTitle_data_ne (name : String) : (groupTitle name).data ≠ [] := by
  unfold groupTitle
  rw [String.data_append, String.data_append]
  intro h
  exact absurd (List.append_eq_nil.1 (List.append_eq_nil.1 h).1).1 (by decide)

/-- The fleet title has characters. -/
theorem fleetTitle_data_ne (m y : Nat) : (fleetTitle m y).data ≠ [] := by
  unfold fleetTitle
  rw [String.data_append, String.data_append, String.data_append,
    String.data_append]
  intro h
  exact absurd
    (List.append_eq_nil.1
      (List.append_eq_nil.1 (List.append_eq_nil.1 (List.append_eq_nil.1 h).1).1).1).1
    (by decide)

/-- C7: on an empty entry list each report shape — group, fleet and
personal — returns exactly its title line followed by the no-data marker:
a non-empty string containing the title, never an empty string (and, being
a total function of its inputs, never an exception). -/
theorem reports_empty_no_data :
    (∀ (fmt : Fmt) (rateFn : PDate → ℚ × ℚ) (nameFn : Int → Option String)
        (name : String),
      formatGroupReportExact fmt rateFn nameFn [] name =
          groupTitle name ++ "\n\n❌ 暫無數據" ∧
        formatGroupReportExact fmt rateFn nameFn [] name ≠ "") ∧
      (∀ (fmt : Fmt) (rateFn : PDate → ℚ × ℚ) (gname : Int → Option String)
          (m y : Nat),
        formatFleetReportExact fmt rateFn gname [] m y =
            fleetTitle m y ++ "\n\n❌ 暫無數據" ∧
          formatFleetReportExact fmt rateFn gname [] m y ≠ "") ∧
      (∀ (fmt : Fmt) (userName groupName : String),
        formatPersonalReport fmt [] userName groupName =
            pIcon ++ userName ++ pLabel ++ pNoData ∧
          formatPersonalReport fmt [] userName groupName ≠ "") := by
  refine ⟨fun fmt rateFn nameFn name => ⟨rfl, ?_⟩,
    fun fmt rateFn gname m y => ⟨rfl, ?_⟩,
    fun fmt userName groupName => ⟨rfl, ?_⟩⟩
  · rw [show formatGroupReportExact fmt rateFn nameFn [] name =
        groupTitle name ++ "\n\n❌ 暫無數據" from rfl]
    exact append_ne_empty_of_left _ _ (groupTitle_data_ne name)
  · rw [show formatFleetReportExact fmt rateFn gname [] m y =
        fleetTitle m y ++ "\n\n❌ 暫無數據" from rfl]
    exact append_ne_empty_of_left _ _ (fleetTitle_data_ne m y)
  · rw [show formatPersonalReport fmt [] userName groupName =
        pIcon ++ userName ++ pLabel ++ pNoData from rfl]
    refine append_ne_empty_of_left (pIcon ++ userName ++ pLabel) pNoData ?_
    rw [String.data_append, String.data_append]
    intro h
    exact absurd (List.append_eq_nil.1 (List.append_eq_nil.1 h).1).1 (by decide)

/-- Witness for `reports_empty_no_data` at concrete arguments. -/
theorem reports_empty_no_data_witness :
    formatGroupReportExact ⟨fun _ => "", fun _ => "", fun _ => ""⟩
        (fun _ => (30, 7)) (fun _ => none) [] "G" =
      groupTitle "G" ++ "\n\n❌ 暫無數據" := by
  exact (reports_empty_no_data.1 ⟨fun _ => "", fun _ => "", fun _ => ""⟩
    (fun _ => (30, 7)) (fun _ => none) "G").1

/-- The settlement total of the group fold is the sum over day buckets of
the day's converted positive TW subtotal. -/
theorem groupTotals_twU_sum (rateFn : PDate → ℚ × ℚ)
    (drates : List (DayKey × PDate)) :
    ∀ (l : List (DayKey × GBucket)) (acc : Totals),
      (l.foldl (groupStep rateFn drates) acc).twU =
        acc.twU + (l.map (fun kb =>
          if 0 < (kb.2.tw.map (fun e => e.1)).sum then
            (kb.2.tw.map (fun e => e.1)).sum /
              (rateFn ((dkGet kb.1 drates).getD ⟨0, 0, 0⟩)).1
          else 0)).sum := by
  intro l
  induction l with
  | nil => intro acc; simp
  | cons x xs ih =>
    intro acc
    simp only [List.foldl_cons, List.map_cons, List.sum_cons]
    rw [ih]
    have hstep : (groupStep rateFn drates acc x).twU =
        acc.twU + (if 0 < (x.2.tw.map (fun e => e.1)).sum then
          (x.2.tw.map (fun e => e.1)).sum /
            (rateFn ((dkGet x.1 drates).getD ⟨0, 0, 0⟩)).1 else 0) := by
      unfold groupStep
      dsimp only
      split
      · rfl
      · rw [add_zero]
    rw [hstep]
    ring

/-- CN analog of `groupTotals_twU_sum`. -/
theorem groupTotals_cnU_sum (rateFn : PDate → ℚ × ℚ)
    (drates : List (DayKey × PDate)) :
    ∀ (l : List (DayKey × GBucket)) (acc : Totals),
      (l.foldl (groupStep rateFn drates) acc).cnU =
        acc.cnU + (l.map (fun kb =>
          if 0 < (kb.2.cn.map (fun e => e.1)).sum then
            (kb.2.cn.map (fun e => e.1)).sum /
              (rateFn ((dkGet kb.1 drates).getD ⟨0, 0, 0⟩)).2
          else 0)).sum := by
  intro l
  induction l with
  | nil => intro acc; simp
  | cons x xs ih =>
    intro acc
    simp only [List.foldl_cons, List.map_cons, List.sum_cons]
    rw [ih]
    have hstep : (groupStep rateFn drates acc x).cnU =
        acc.cnU + (if 0 < (x.2.cn.map (fun e => e.1)).sum then
          (x.2.cn.map (fun e => e.1)).sum /
            (rateFn ((dkGet x.1 drates).getD ⟨0, 0, 0⟩)).2 else 0) := by
      unfold groupStep
      dsimp only
      split
      · rfl
      · rw [add_zero]
    rw [hstep]
    ring

/-- The settlement total of the fleet fold is the sum over day buckets of
the day's converted positive TW total. -/
theorem fleetTotals_twU_sum (rateFn : PDate → ℚ × ℚ)
    (drates : List (DayKey × PDate)) :
    ∀ (l : List (DayKey × FBucket)) (acc : Totals),
      (l.foldl (fleetStep rateFn drates) acc).twU =
        acc.twU + (l.map (fun kb =>
          if 0 < kb.2.tw then
            kb.2.tw / (rateFn ((dkGet kb.1 drates).getD ⟨0, 0, 0⟩)).1
          else 0)).sum := by
  intro l
  induction l with
  | nil => intro acc; simp
  | cons x xs ih =>
    intro acc
    simp only [List.foldl_cons, List.map_cons, List.sum_cons]
    rw [ih]
    have hstep : (fleetStep rateFn drates acc x).twU =
        acc.twU + (if 0 < x.2.tw then
          x.2.tw / (rateFn ((dkGet x.1 drates).getD ⟨0, 0, 0⟩)).1 else 0) := by
      unfold fleetStep
      dsimp only
      split
      · rfl
      · rw [add_zero]
    rw [hstep]
    ring

/-- CN analog of `fleetTotals_twU_sum`. -/
theorem fleetTotals_cnU_sum (rateFn : PDate → ℚ × ℚ)
    (drates : List (DayKey × PDate)) :
    ∀ (l : List (DayKey × FBucket)) (acc : Totals),
      (l.foldl (fleetStep rateFn drates) acc).cnU =
        acc.cnU + (l.map (fun kb =>
          if 0 < kb.2.cn then
            kb.2.cn / (rateFn ((dkGet kb.1 drates).getD ⟨0, 0, 0⟩)).2
          else 0)).sum := by
  intro l
  induction l with
  | nil => intro acc; simp
  | cons x xs ih =>
    intro acc
    simp only [List.foldl_cons, List.map_cons, List.sum_cons]
    rw [ih]
    have hstep : (fleetStep rateFn drates acc x).cnU =
        acc.cnU + (if 0 < x.2.cn then
          x.2.cn / (rateFn ((dkGet x.1 drates).getD ⟨0, 0, 0⟩)).2 else 0) := by
      unfold fleetStep
      dsimp only
      split
      · rfl
      · rw [add_zero]
    rw [hstep]
    ring

/-- Convert-then-sum differs from sum-then-convert at either single rate
whenever the two rates differ. -/
theorem convert_ne (a₁ a₂ r₁ r₂ : ℚ) (ha₁ : 0 < a₁) (ha₂ : 0 < a₂)
    (hr₁ : 0 < r₁) (hr₂ : 0 < r₂) (hne : r₁ ≠ r₂) :
    a₁ / r₁ + a₂ / r₂ ≠ (a₁ + a₂) / r₁ ∧ a₁ / r₁ + a₂ / r₂ ≠ (a₁ + a₂) / r₂ := by
  constructor
  · intro h
    apply hne
    field_simp at h
    have h2 : (a₂ * r₁) * r₁ = (a₂ * r₁) * r₂ := by
      ring_nf
      ring_nf at h
      linarith
    exact mul_left_cancel₀ (ne_of_gt (by positivity)) h2
  · intro h
    apply hne
    field_simp at h
    have h2 : (a₁ * r₂) * r₁ = (a₁ * r₂) * r₂ := by
      ring_nf
      ring_nf at h
      linarith
    exact mul_left_cancel₀ (ne_of_gt (by positivity)) h2

/-- The group builder on two same-currency income rows on distinct days:
one bucket and one rate entry per day. -/
theorem buildGroup_two (nameFn : Int → Option String) (d₁ d₂ : PDate) (a₁ a₂ : ℚ)
    (hk : ((d₁.m, d₁.d) : DayKey) ≠ ((d₂.m, d₂.d) : DayKey)) :
    buildGroup nameFn
      [⟨"income", "TW", a₁, some d₁, none, none, none, none⟩,
       ⟨"income", "TW", a₂, some d₂, none, none, none, none⟩] =
      ([((d₁.m, d₁.d),
          ⟨[(a₁, dispName nameFn ⟨"income", "TW", a₁, some d₁, none, none, none, none⟩)], []⟩),
        ((d₂.m, d₂.d),
          ⟨[(a₂, dispName nameFn ⟨"income", "TW", a₂, some d₂, none, none, none, none⟩)], []⟩)],
       [((d₁.m, d₁.d), d₁), ((d₂.m, d₂.d), d₂)]) := by
  simp [buildGroup, dkGet, dkSet, dkUpd, hk, Ne.symm hk]

/-- The fleet builder on two same-currency income rows on distinct days
(no group context): one bucket and one rate entry per day. -/
theorem buildFleet_two (gname : Int → Option String) (d₁ d₂ : PDate) (a₁ a₂ : ℚ)
    (hk : ((d₁.m, d₁.d) : DayKey) ≠ ((d₂.m, d₂.d) : DayKey)) :
    buildFleet gname
      [⟨"income", "TW", a₁, some d₁, none, none, none, none⟩,
       ⟨"income", "TW", a₂, some d₂, none, none, none, none⟩] =
      ([((d₁.m, d₁.d), ⟨a₁, 0, []⟩), ((d₂.m, d₂.d), ⟨a₂, 0, []⟩)],
       [((d₁.m, d₁.d), d₁), ((d₂.m, d₂.d), d₂)]) := by
  simp [buildFleet, dkGet, dkSet, dkUpd, hk, Ne.symm hk]

/-- C1: the grand-total settlement amount of the group and fleet
aggregators is the sum over day buckets of that day's per-currency income
subtotal divided by that day's own rate (convert-then-sum); on two days
with positive subtotals and different rates it therefore differs from the
total local subtotal divided by either single rate. -/
theorem grand_total_convert_then_sum :
    (∀ (rateFn : PDate → ℚ × ℚ) (dtx : List (DayKey × GBucket))
        (drates : List (DayKey × PDate)),
      (groupTotals rateFn dtx drates).twU =
          (dtx.map (fun kb =>
            if 0 < (kb.2.tw.map (fun e => e.1)).sum then
              (kb.2.tw.map (fun e => e.1)).sum /
                (rateFn ((dkGet kb.1 drates).getD ⟨0, 0, 0⟩)).1
            else 0)).sum ∧
        (groupTotals rateFn dtx drates).cnU =
          (dtx.map (fun kb =>
            if 0 < (kb.2.cn.map (fun e => e.1)).sum then
              (kb.2.cn.map (fun e => e.1)).sum /
                (rateFn ((dkGet kb.1 drates).getD ⟨0, 0, 0⟩)).2
            else 0)).sum) ∧
      (∀ (rateFn : PDate → ℚ × ℚ) (dtx : List (DayKey × FBucket))
          (drates : List (DayKey × PDate)),
        (fleetTotals rateFn dtx drates).twU =
            (dtx.map (fun kb =>
              if 0 < kb.2.tw then
                kb.2.tw / (rateFn ((dkGet kb.1 drates).getD ⟨0, 0, 0⟩)).1
              else 0)).sum ∧
          (fleetTotals rateFn dtx drates).cnU =
            (dtx.map (fun kb =>
              if 0 < kb.2.cn then
                kb.2.cn / (rateFn ((dkGet kb.1 drates).getD ⟨0, 0, 0⟩)).2
              else 0)).sum) ∧
      (∀ (nameFn : Int → Option String) (rateFn : PDate → ℚ × ℚ)
          (d₁ d₂ : PDate) (a₁ a₂ : ℚ),
        ((d₁.m, d₁.d) : DayKey) ≠ ((d₂.m, d₂.d) : DayKey) → 0 < a₁ → 0 < a₂ →
        0 < (rateFn d₁).1 → 0 < (rateFn d₂).1 → (rateFn d₁).1 ≠ (rateFn d₂).1 →
        (groupTotals rateFn
            (buildGroup nameFn
              [⟨"income", "TW", a₁, some d₁, none, none, none, none⟩,
               ⟨"income", "TW", a₂, some d₂, none, none, none, none⟩]).1
            (buildGroup nameFn
              [⟨"income", "TW", a₁, some d₁, none, none, none, none⟩,
               ⟨"income", "TW", a₂, some d₂, none, none, none, none⟩]).2).twU =
            a₁ / (rateFn d₁).1 + a₂ / (rateFn d₂).1 ∧
          a₁ / (rateFn d₁).1 + a₂ / (rateFn d₂).1 ≠ (a₁ + a₂) / (rateFn d₁).1 ∧
          a₁ / (rateFn d₁).1 + a₂ / (rateFn d₂).1 ≠ (a₁ + a₂) / (rateFn d₂).1) ∧
      (∀ (gname : Int → Option String) (rateFn : PDate → ℚ × ℚ)
          (d₁ d₂ : PDate) (a₁ a₂ : ℚ),
        ((d₁.m, d₁.d) : DayKey) ≠ ((d₂.m, d₂.d) : DayKey) → 0 < a₁ → 0 < a₂ →
        0 < (rateFn d₁).1 → 0 < (rateFn d₂).1 → (rateFn d₁).1 ≠ (rateFn d₂).1 →
        (fleetTotals rateFn
            (buildFleet gname
              [⟨"income", "TW", a₁, some d₁, none, none, none, none⟩,
               ⟨"income", "TW", a₂, some d₂, none, none, none, none⟩]).1
            (buildFleet gname
              [⟨"income", "TW", a₁, some d₁, none, none, none, none⟩,
               ⟨"income", "TW", a₂, some d₂, none, none, none, none⟩]).2).twU =
            a₁ / (rateFn d₁).1 + a₂ / (rateFn d₂).1 ∧
          a₁ / (rateFn d₁).1 + a₂ / (rateFn d₂).1 ≠ (a₁ + a₂) / (rateFn d₁).1 ∧
          a₁ / (rateFn d₁).1 + a₂ / (rateFn d₂).1 ≠ (a₁ + a₂) / (rateFn d₂).1) := by
  refine ⟨fun rateFn dtx drates => ⟨?_, ?_⟩, fun rateFn dtx drates => ⟨?_, ?_⟩,
    ?_, ?_⟩
  · rw [groupTotals, groupTotals_twU_sum]
    simp
  · rw [groupTotals, groupTotals_cnU_sum]
    simp
  · rw [fleetTotals, fleetTotals_twU_sum]
    simp
  · rw [fleetTotals, fleetTotals_cnU_sum]
    simp
  · intro nameFn rateFn d₁ d₂ a₁ a₂ hk ha₁ ha₂ hr₁ hr₂ hne
    refine ⟨?_, convert_ne _ _ _ _ ha₁ ha₂ hr₁ hr₂ hne⟩
    rw [buildGroup_two nameFn d₁ d₂ a₁ a₂ hk]
    rw [groupTotals, groupTotals_twU_sum]
    simp [dkGet, hk, Ne.symm hk, ha₁, ha₂]
  · intro gname rateFn d₁ d₂ a₁ a₂ hk ha₁ ha₂ hr₁ hr₂ hne
    refine ⟨?_, convert_ne _ _ _ _ ha₁ ha₂ hr₁ hr₂ hne⟩
    rw [buildFleet_two gname d₁ d₂ a₁ a₂ hk]
    rw [fleetTotals, fleetTotals_twU_sum]
    simp [dkGet, hk, Ne.symm hk, ha₁, ha₂]

/-- Witness for `grand_total_convert_then_sum`: the spec's end-to-end
scenario (1000 on June 1 at rate 33.33, 2000 on June 2 at rate 30). -/
theorem grand_total_convert_then_sum_witness :
    (groupTotals demoRateFn
        (buildGroup (fun _ => none)
          [⟨"income", "TW", 1000, some ⟨2025, 6, 1⟩, none, none, none, none⟩,
           ⟨"income", "TW", 2000, some ⟨2025, 6, 2⟩, none, none, none, none⟩]).1
        (buildGroup (fun _ => none)
          [⟨"income", "TW", 1000, some ⟨2025, 6, 1⟩, none, none, none, none⟩,
           ⟨"income", "TW", 2000, some ⟨2025, 6, 2⟩, none, none, none, none⟩]).2).twU =
      1000 / (demoRateFn ⟨2025, 6, 1⟩).1 + 2000 / (demoRateFn ⟨2025, 6, 2⟩).1 := by
  exact (grand_total_convert_then_sum.2.2.1 (fun _ => none) demoRateFn
    ⟨2025, 6, 1⟩ ⟨2025, 6, 2⟩ 1000 2000 (by decide) (by norm_num) (by norm_num)
    (by norm_num [demoRateFn]) (by norm_num [demoRateFn])
    (by norm_num [demoRateFn])).1

/-!
Sanitizer theorems (C8).  The proof works through the chunk view: every
pattern of `fix_html_tags` starts with `<` and continues `<`-free, so all
rewrites act on the chunk decomposition, where idempotence is a statement
about prefix rewrites and adjacent-chunk repairs.
-/

/-- A successful literal match decomposes the input. -/
theorem delPre_some_append (g : List Char) : ∀ (c t : List Char),
    delPre g c = some t → c = g ++ t := by
  induction g with
  | nil =>
    intro c t h
    cases h
    rfl
  | cons p ps ih =>
    intro c t h
    cases c with
    | nil => cases h
    | cons a cs =>
      unfold delPre at h
      split at h
      · rename_i hpc
        subst hpc
        rw [List.cons_append]
        exact congrArg _ (ih cs t h)
      · cases h

/-- A successful non-empty literal match consumes at least one character. -/
theorem delPre_cons_length (p : Char) (ps s t : List Char)
    (h : delPre (p :: ps) s = some t) : t.length < s.length := by
  rw [delPre_some_append _ _ _ h]
  simp only [List.length_append, List.length_cons]
  omega

/-- A literal starting with a different character does not match. -/
theorem delPre_head_ne (p a : Char) (ps cs : List Char) (hne : p ≠ a) :
    delPre (p :: ps) (a :: cs) = none := by
  unfold delPre
  rw [if_neg hne]

/-- Matching a `<`-free literal against a chunk followed by the rest of
the string is matching against the chunk alone: the literal cannot reach
past the chunk boundary, whose next character is `<` (or the end). -/
theorem delPre_chunk (q : List Char) (hq : ∀ a ∈ q, a ≠ '<') :
    ∀ (c : List Char), (∀ a ∈ c, a ≠ '<') →
    ∀ (rest : List Char), (rest = [] ∨ ∃ r, rest = '<' :: r) →
    delPre q (c ++ rest) = (delPre q c).map (fun x => x ++ rest) := by
  induction q with
  | nil =>
    intro c _ rest _
    rfl
  | cons x q2 ihq =>
    intro c hc rest hrest
    cases c with
    | nil =>
      simp only [List.nil_append, delPre, Option.map_none]
      rcases hrest with rfl | ⟨r, rfl⟩
      · rfl
      · exact delPre_head_ne _ _ _ _ (hq x (List.mem_cons_self _ _))
    | cons y c2 =>
      rw [List.cons_append]
      unfold delPre
      by_cases hxy : x = y
      · rw [if_pos hxy, if_pos hxy]
        exact ihq (fun a ha => hq a (List.mem_cons_of_mem _ ha)) c2
          (fun a ha => hc a (List.mem_cons_of_mem _ ha)) rest hrest
      · rw [if_neg hxy, if_neg hxy]
        rfl

/-- A successful match of a `<`-free literal against a `<`-free chunk
leaves a `<`-free remainder. -/
theorem delPre_chunk_rest (q c t : List Char) (hc : ∀ a ∈ c, a ≠ '<')
    (h : delPre q c = some t) : ∀ a ∈ t, a ≠ '<' := by
  intro a ha
  apply hc
  rw [delPre_some_append _ _ _ h]
  exact List.mem_append_right _ ha

/-- takeWhile and dropWhile of a chunk boundary. -/
theorem takeWhile_chunk (t1 : List Char) (h1 : ∀ a ∈ t1, a ≠ '<')
    (rest : List Char) (hrest : rest = [] ∨ ∃ r, rest = '<' :: r) :
    (t1 ++ rest).takeWhile (· ≠ '<') = t1 ∧
      (t1 ++ rest).dropWhile (· ≠ '<') = rest := by
  induction t1 with
  | nil =>
    rcases hrest with rfl | ⟨r, rfl⟩
    · exact ⟨rfl, rfl⟩
    · simp [List.takeWhile_cons, List.dropWhile_cons]
  | cons a t2 ih =>
    have ha : a ≠ '<' := h1 a (List.mem_cons_self _ _)
    have := ih (fun x hx => h1 x (List.mem_cons_of_mem _ hx))
    simp only [List.cons_append, List.takeWhile_cons, List.dropWhile_cons, ha,
      ne_eq, not_false_eq_true, decide_True, if_true]
    exact ⟨congrArg _ this.1, this.2⟩

/-- The catenation of chunks is empty or starts at a chunk boundary. -/
theorem catChunks_shape (cs : List (List Char)) :
    catChunks cs = [] ∨ ∃ r, catChunks cs = '<' :: r := by
  cases cs with
  | nil => exact Or.inl rfl
  | cons c cs2 => exact Or.inr ⟨c ++ catChunks cs2, rfl⟩

/-- What dropWhile leaves starts with the failing character (or is empty). -/
theorem dropWhile_lt_shape (s : List Char) :
    s.dropWhile (· ≠ '<') = [] ∨ ∃ r, s.dropWhile (· ≠ '<') = '<' :: r := by
  induction s with
  | nil => exact Or.inl rfl
  | cons a s2 ih =>
    by_cases ha : a = '<'
    · subst ha
      simp only [List.dropWhile_cons]
      norm_num
    · simpa [List.dropWhile_cons, ha] using ih

/-- Helper for `catChunks_chunksOf`, by induction on a length bound. -/
theorem catChunks_chunksOf_aux : ∀ (n : Nat) (s : List Char), s.length ≤ n →
    (s = [] ∨ ∃ r, s = '<' :: r) → catChunks (chunksOf s) = s := by
  intro n
  induction n with
  | zero =>
    intro s hl hs
    have : s = [] := List.length_eq_zero.1 (Nat.le_zero.1 hl)
    subst this
    rw [chunksOf]
    rfl
  | succ n ih =>
    intro s hl hs
    rcases hs with rfl | ⟨r, rfl⟩
    · rw [chunksOf]
      rfl
    · rw [chunksOf]
      have hlen : (r.dropWhile (· ≠ '<')).length < r.length + 1 := by
        have h := congrArg List.length
          (List.takeWhile_append_dropWhile (· ≠ '<') r)
        simp only [List.length_append] at h
        omega
      rw [dif_pos hlen]
      rw [catChunks]
      have hrec : catChunks (chunksOf (r.dropWhile (· ≠ '<'))) =
          r.dropWhile (· ≠ '<') := by
        apply ih _ _ (dropWhile_lt_shape r)
        simp only [List.length_cons] at hl
        omega
      rw [hrec]
      rw [List.cons_append, List.takeWhile_append_dropWhile]

/-- Rebuilding the chunks of a string that starts at a chunk boundary
gives the string back. -/
theorem catChunks_chunksOf (s : List Char)
    (hs : s = [] ∨ ∃ r, s = '<' :: r) : catChunks (chunksOf s) = s :=
  catChunks_chunksOf_aux s.length s (Nat.le_refl _) hs

/-- Helper for `chunksOf_noLt`, by induction on a length bound. -/
theorem chunksOf_noLt_aux : ∀ (n : Nat) (s : List Char), s.length ≤ n →
    ∀ c ∈ chunksOf s, ∀ a ∈ c, a ≠ '<' := by
  intro n
  induction n with
  | zero =>
    intro s hl c hc
    have : s = [] := List.length_eq_zero.1 (Nat.le_zero.1 hl)
    subst this
    rw [chunksOf] at hc
    cases hc
  | succ n ih =>
    intro s hl c hc
    cases s with
    | nil =>
      rw [chunksOf] at hc
      cases hc
    | cons x r =>
      rw [chunksOf] at hc
      have hlen : (r.dropWhile (· ≠ '<')).length < r.length + 1 := by
        have h := congrArg List.length
          (List.takeWhile_append_dropWhile (· ≠ '<') r)
        simp only [List.length_append] at h
        omega
      rw [dif_pos hlen] at hc
      rcases List.mem_cons.1 hc with rfl | hmem
      · intro a ha
        have := List.mem_takeWhile_imp ha
        simpa using this
      · refine ih _ ?_ c hmem
        have h2 := dropWhile_lt_shape r
        simp only [List.length_cons] at hl
        omega

/-- Every chunk is `<`-free. -/
theorem chunksOf_noLt (s : List Char) :
    ∀ c ∈ chunksOf s, ∀ a ∈ c, a ≠ '<' :=
  chunksOf_noLt_aux s.length s (Nat.le_refl _)

/-- Every string splits into a `<`-free prefix and its chunks. -/
theorem string_decompose (s : List Char) :
    s = s.takeWhile (· ≠ '<') ++ catChunks (chunksOf (s.dropWhile (· ≠ '<'))) := by
  rw [catChunks_chunksOf _ (dropWhile_lt_shape s), List.takeWhile_append_dropWhile]

/-- Matching a literal whose head equals the head of the input steps into
both. -/
theorem delPre_cons_cons (p : Char) (ps cs : List Char) :
    delPre (p :: ps) (p :: cs) = delPre ps cs := by
  have h : delPre (p :: ps) (p :: cs) = if p = p then delPre ps cs else none := rfl
  rw [h, if_pos rfl]

/-- A pattern that starts with `<` scans over a `<`-free prefix without
matching. -/
theorem replaceLit_pass (q rep : List Char) : ∀ (p s : List Char),
    (∀ a ∈ p, a ≠ '<') →
    replaceLit ('<' :: q) rep (p ++ s) = p ++ replaceLit ('<' :: q) rep s := by
  intro p
  induction p with
  | nil => intro s _; rfl
  | cons a p2 ih =>
    intro s hp
    have ha : ('<' : Char) ≠ a := fun h => hp a (List.mem_cons_self _ _) h.symm
    rw [List.cons_append, replaceLit, delPre_head_ne _ _ _ _ ha]
    rw [ih s (fun x hx => hp x (List.mem_cons_of_mem _ hx))]
    rfl

/-- On the chunked part of a string, a case-fix substitution rewrites every
chunk independently by `chunkFix`. -/
theorem replaceLit_chunks (q r : List Char) (hq : ∀ a ∈ q, a ≠ '<')
    (hr : ∀ a ∈ r, a ≠ '<') :
    ∀ (cs : List (List Char)), (∀ c ∈ cs, ∀ a ∈ c, a ≠ '<') →
    replaceLit ('<' :: q) ('<' :: r) (catChunks cs) =
      catChunks (cs.map (chunkFix q r)) := by
  intro cs
  induction cs with
  | nil => intro _; rw [catChunks, List.map_nil, catChunks, replaceLit]
  | cons c cs2 ih =>
    intro hcs
    have hc : ∀ a ∈ c, a ≠ '<' := hcs c (List.mem_cons_self _ _)
    have hcs2 : ∀ x ∈ cs2, ∀ a ∈ x, a ≠ '<' :=
      fun x hx => hcs x (List.mem_cons_of_mem _ hx)
    have hdel : delPre ('<' :: q) ('<' :: (c ++ catChunks cs2)) =
        (delPre q c).map (fun x => x ++ catChunks cs2) := by
      rw [delPre_cons_cons]
      exact delPre_chunk q hq c hc _ (catChunks_shape cs2)
    rw [catChunks, List.map_cons, catChunks, List.cons_append, replaceLit]
    cases hdc : delPre q c with
    | none =>
      rw [hdc, Option.map_none'] at hdel
      rw [hdel]
      rw [replaceLit_pass q ('<' :: r) c _ hc, ih hcs2]
      simp [chunkFix, hdc]
    | some t =>
      rw [hdc, Option.map_some'] at hdel
      rw [hdel]
      dsimp only
      have htlen : t.length ≤ c.length := by
        have := delPre_some_append q c t hdc
        subst this
        simp only [List.length_append]
        omega
      have hguard : (t ++ catChunks cs2).length < (c ++ catChunks cs2).length + 1 := by
        simp only [List.length_append]
        omega
      rw [dif_pos hguard]
      have hht : ∀ a ∈ t, a ≠ '<' := delPre_chunk_rest q c t hc hdc
      rw [replaceLit_pass q ('<' :: r) t _ hht, ih hcs2]
      simp [chunkFix, hdc]

/-- A chunk rewrite by a `<`-free rule keeps the chunk `<`-free. -/
theorem chunkFix_noLt (q r c : List Char) (hr : ∀ a ∈ r, a ≠ '<')
    (hc : ∀ a ∈ c, a ≠ '<') : ∀ a ∈ chunkFix q r c, a ≠ '<' := by
  unfold chunkFix
  cases hdc : delPre q c with
  | none => exact hc
  | some t =>
    intro a ha
    rcases List.mem_append.1 ha with h | h
    · exact hr a h
    · exact delPre_chunk_rest q c t hc hdc a h

/-- Folding chunk rewrites over `<`-free rules keeps the chunk `<`-free. -/
theorem foldl_chunkFix_noLt : ∀ (rules : List (List Char × List Char)),
    (∀ qr ∈ rules, ∀ a ∈ qr.2, a ≠ '<') →
    ∀ (c : List Char), (∀ a ∈ c, a ≠ '<') →
    ∀ a ∈ rules.foldl (fun acc qr => chunkFix qr.1 qr.2 acc) c, a ≠ '<' := by
  intro rules
  induction rules with
  | nil => intro _ c hc; exact hc
  | cons qr rules2 ih =>
    intro hrules c hc
    rw [List.foldl_cons]
    exact ih (fun x hx => hrules x (List.mem_cons_of_mem _ hx)) _
      (chunkFix_noLt qr.1 qr.2 c (hrules qr (List.mem_cons_self _ _)) hc)

/-- The fold of the case-fix substitutions over a decomposed string acts as
the fold of the chunk rewrites on each chunk, leaving the `<`-free prefix
alone. -/
theorem replaceLit_fold : ∀ (rules : List (List Char × List Char)),
    (∀ qr ∈ rules, (∀ a ∈ qr.1, a ≠ '<') ∧ (∀ a ∈ qr.2, a ≠ '<')) →
    ∀ (p : List Char), (∀ a ∈ p, a ≠ '<') →
    ∀ (cs : List (List Char)), (∀ c ∈ cs, ∀ a ∈ c, a ≠ '<') →
    rules.foldl (fun acc qr => replaceLit ('<' :: qr.1) ('<' :: qr.2) acc)
        (p ++ catChunks cs) =
      p ++ catChunks (cs.map
        (fun c => rules.foldl (fun acc qr => chunkFix qr.1 qr.2 acc) c)) := by
  intro rules
  induction rules with
  | nil =>
    intro _ p _ cs _
    simp
  | cons qr rules2 ih =>
    intro hrules p hp cs hcs
    rw [List.foldl_cons]
    rw [replaceLit_pass qr.1 ('<' :: qr.2) p _ hp]
    rw [replaceLit_chunks qr.1 qr.2 (hrules qr (List.mem_cons_self _ _)).1
      (hrules qr (List.mem_cons_self _ _)).2 cs hcs]
    have hmap : ∀ c ∈ cs.map (chunkFix qr.1 qr.2), ∀ a ∈ c, a ≠ '<' := by
      intro c hc
      obtain ⟨x, hx, rfl⟩ := List.mem_map.1 hc
      exact chunkFix_noLt qr.1 qr.2 x (hrules qr (List.mem_cons_self _ _)).2 (hcs x hx)
    rw [ih (fun x hx => hrules x (List.mem_cons_of_mem _ hx)) p hp _ hmap]
    rw [List.map_map]
    rfl

/-- The doubled-tag scanner finds nothing at a non-`<` character. -/
theorem tryMatch_head_ne (t : List Char) (a : Char) (ha : a ≠ '<') (cs : List Char) :
    tryMatch t (a :: cs) = none := by
  unfold tryMatch
  rw [openT, delPre_head_ne '<' a (t ++ ['>']) cs (fun h => ha h.symm)]

/-- The opening tag never matches an empty input. -/
theorem delPre_open_nil (t : List Char) : delPre (openT t) [] = none := rfl

/-- Matching the opening tag at a chunk boundary is matching `t>` against
the chunk. -/
theorem delPre_open_chunk (t c rest : List Char) (ht : ∀ a ∈ t, a ≠ '<')
    (hc : ∀ a ∈ c, a ≠ '<') (hrest : rest = [] ∨ ∃ r, rest = '<' :: r) :
    delPre (openT t) ('<' :: (c ++ rest)) =
      (delPre (t ++ ['>']) c).map (fun x => x ++ rest) := by
  rw [openT, delPre_cons_cons]
  apply delPre_chunk
  · intro a ha
    rcases List.mem_append.1 ha with h | h
    · exact ht a h
    · rw [List.mem_singleton.1 h]
      decide
  · exact hc
  · exact hrest

/-- The doubled-tag repair scans over a `<`-free prefix unchanged. -/
theorem subCloseStr_pass (t : List Char) : ∀ (p s : List Char),
    (∀ a ∈ p, a ≠ '<') → subCloseStr t (p ++ s) = p ++ subCloseStr t s := by
  intro p
  induction p with
  | nil => intro s _; rfl
  | cons a p2 ih =>
    intro s hp
    rw [List.cons_append, subCloseStr,
      tryMatch_head_ne t a (hp a (List.mem_cons_self _ _)) _]
    rw [ih s (fun x hx => hp x (List.mem_cons_of_mem _ hx))]
    rfl

/-- The doubled-tag repair leaves the empty string alone. -/
theorem subCloseStr_nil (t : List Char) : subCloseStr t [] = [] := by
  rw [subCloseStr]

/-- On a single final chunk the doubled-tag pattern cannot match: there is
no second opening tag to find. -/
theorem tryMatch_chunk1 (t : List Char) (ht : ∀ a ∈ t, a ≠ '<')
    (c1 : List Char) (hc1 : ∀ a ∈ c1, a ≠ '<') :
    tryMatch t ('<' :: (c1 ++ ([] : List Char))) = none := by
  have hd1 := delPre_open_chunk t c1 [] ht hc1 (Or.inl rfl)
  unfold tryMatch
  cases hm1 : delPre (t ++ ['>']) c1 with
  | none =>
    rw [hm1, Option.map_none'] at hd1
    rw [hd1]
  | some u1 =>
    rw [hm1, Option.map_some'] at hd1
    rw [hd1]
    dsimp only
    have hu1 := delPre_chunk_rest _ _ _ hc1 hm1
    have htw := takeWhile_chunk u1 hu1 [] (Or.inl rfl)
    rw [htw.2, delPre_open_nil]

/-- The doubled-tag pattern at a chunk boundary matches exactly when the
two adjacent chunks both start with the opening tag. -/
theorem tryMatch_chunk2 (t : List Char) (ht : ∀ a ∈ t, a ≠ '<')
    (c1 c2 rest2 : List Char) (hc1 : ∀ a ∈ c1, a ≠ '<')
    (hc2 : ∀ a ∈ c2, a ≠ '<')
    (hrest2 : rest2 = [] ∨ ∃ r, rest2 = '<' :: r) :
    tryMatch t ('<' :: (c1 ++ ('<' :: (c2 ++ rest2)))) =
      match delPre (t ++ ['>']) c1, delPre (t ++ ['>']) c2 with
      | some u1, some u2 => some (u1, u2 ++ rest2)
      | _, _ => none := by
  have hd1 := delPre_open_chunk t c1 ('<' :: (c2 ++ rest2)) ht hc1 (Or.inr ⟨_, rfl⟩)
  unfold tryMatch
  cases hm1 : delPre (t ++ ['>']) c1 with
  | none =>
    rw [hm1, Option.map_none'] at hd1
    rw [hd1]
  | some u1 =>
    rw [hm1, Option.map_some'] at hd1
    rw [hd1]
    dsimp only
    have hu1 := delPre_chunk_rest _ _ _ hc1 hm1
    have htw := takeWhile_chunk u1 hu1 ('<' :: (c2 ++ rest2)) (Or.inr ⟨_, rfl⟩)
    rw [htw.1, htw.2, delPre_open_chunk t c2 rest2 ht hc2 hrest2]
    cases hm2 : delPre (t ++ ['>']) c2 with
    | none => rfl
    | some u2 => rfl

/-- Helper for `subCloseStr_chunks`: the doubled-tag repair on the chunked
part of a string is the adjacent-chunk repair `subCC`, by induction on a
length bound. -/
theorem subCloseStr_chunks_aux (t : List Char) (ht : ∀ a ∈ t, a ≠ '<') :
    ∀ (n : Nat) (cs : List (List Char)), cs.length ≤ n →
    (∀ c ∈ cs, ∀ a ∈ c, a ≠ '<') →
    subCloseStr t (catChunks cs) = catChunks (subCC t cs) := by
  intro n
  induction n with
  | zero =>
    intro cs hl _
    have hnil : cs = [] := List.length_eq_zero.1 (Nat.le_zero.1 hl)
    subst hnil
    simp only [catChunks, subCC]
    rw [subCloseStr]
  | succ n ih =>
    intro cs hl hcs
    cases cs with
    | nil =>
      simp only [catChunks, subCC]
      rw [subCloseStr]
    | cons c1 cs2 =>
      have hc1 : ∀ a ∈ c1, a ≠ '<' := hcs c1 (List.mem_cons_self _ _)
      cases cs2 with
      | nil =>
        simp only [subCC]
        rw [catChunks, catChunks, List.cons_append]
        rw [subCloseStr, tryMatch_chunk1 t ht c1 hc1]
        dsimp only
        rw [subCloseStr_pass t c1 [] hc1, subCloseStr_nil]
      | cons c2 rest =>
        have hc2 : ∀ a ∈ c2, a ≠ '<' :=
          hcs c2 (List.mem_cons_of_mem _ (List.mem_cons_self _ _))
        have hrest : ∀ c ∈ rest, ∀ a ∈ c, a ≠ '<' :=
          fun c hc => hcs c (List.mem_cons_of_mem _ (List.mem_cons_of_mem _ hc))
        rw [catChunks, catChunks, List.cons_append, List.cons_append]
        cases hm1 : delPre (t ++ ['>']) c1 with
        | none =>
          have htm : tryMatch t ('<' :: (c1 ++ ('<' :: (c2 ++ catChunks rest)))) = none := by
            rw [tryMatch_chunk2 t ht c1 c2 (catChunks rest) hc1 hc2 (catChunks_shape rest),
              hm1]
          rw [subCloseStr, htm]
          dsimp only
          rw [subCloseStr_pass t c1 _ hc1]
          have hcat : ('<' :: (c2 ++ catChunks rest)) = catChunks (c2 :: rest) := by
            rw [catChunks, List.cons_append]
          rw [hcat, ih (c2 :: rest)
            (by simp only [List.length_cons] at hl ⊢; omega)
            (fun c hc => hcs c (List.mem_cons_of_mem _ hc))]
          have hcond : ¬(((delPre (t ++ ['>']) c1).isSome &&
              (delPre (t ++ ['>']) c2).isSome) = true) := by
            rw [hm1]
            simp
          rw [subCC, if_neg hcond, catChunks, List.cons_append]
        | some u1 =>
          cases hm2 : delPre (t ++ ['>']) c2 with
          | none =>
            have htm : tryMatch t ('<' :: (c1 ++ ('<' :: (c2 ++ catChunks rest)))) = none := by
              rw [tryMatch_chunk2 t ht c1 c2 (catChunks rest) hc1 hc2 (catChunks_shape rest),
                hm1, hm2]
            rw [subCloseStr, htm]
            dsimp only
            rw [subCloseStr_pass t c1 _ hc1]
            have hcat : ('<' :: (c2 ++ catChunks rest)) = catChunks (c2 :: rest) := by
              rw [catChunks, List.cons_append]
            rw [hcat, ih (c2 :: rest)
              (by simp only [List.length_cons] at hl ⊢; omega)
              (fun c hc => hcs c (List.mem_cons_of_mem _ hc))]
            have hcond : ¬(((delPre (t ++ ['>']) c1).isSome &&
                (delPre (t ++ ['>']) c2).isSome) = true) := by
              rw [hm1, hm2]
              simp
            rw [subCC, if_neg hcond, catChunks, List.cons_append]
          | some u2 =>
            have htm : tryMatch t ('<' :: (c1 ++ ('<' :: (c2 ++ catChunks rest)))) =
                some (u1, u2 ++ catChunks rest) := by
              rw [tryMatch_chunk2 t ht c1 c2 (catChunks rest) hc1 hc2 (catChunks_shape rest),
                hm1, hm2]
            rw [subCloseStr, htm]
            dsimp only
            have hu2len : u2.length ≤ c2.length := by
              rw [delPre_some_append _ _ _ hm2]
              simp only [List.length_append]
              omega
            have hguard : (u2 ++ catChunks rest).length <
                (c1 ++ ('<' :: (c2 ++ catChunks rest))).length + 1 := by
              simp only [List.length_append, List.length_cons]
              omega
            rw [dif_pos hguard]
            have hu2 : ∀ a ∈ u2, a ≠ '<' := delPre_chunk_rest _ _ _ hc2 hm2
            rw [subCloseStr_pass t u2 _ hu2]
            rw [ih rest (by simp only [List.length_cons] at hl ⊢; omega) hrest]
            have hcond : (((delPre (t ++ ['>']) c1).isSome &&
                (delPre (t ++ ['>']) c2).isSome) = true) := by
              rw [hm1, hm2]
              rfl
            rw [subCC, if_pos hcond, hm2]
            rw [catChunks, catChunks]
            rw [delPre_some_append _ _ _ hm1]
            simp [openT, closeT, List.append_assoc]

/-- The doubled-tag repair on the chunked part of a string. -/
theorem subCloseStr_chunks (t : List Char) (ht : ∀ a ∈ t, a ≠ '<')
    (cs : List (List Char)) (hcs : ∀ c ∈ cs, ∀ a ∈ c, a ≠ '<') :
    subCloseStr t (catChunks cs) = catChunks (subCC t cs) :=
  subCloseStr_chunks_aux t ht cs.length cs (Nat.le_refl _) hcs

/-- Helper: the adjacent-chunk repair keeps every chunk `<`-free. -/
theorem subCC_noLt_aux (t : List Char) (ht : ∀ a ∈ t, a ≠ '<') :
    ∀ (n : Nat) (ds : List (List Char)), ds.length ≤ n →
    (∀ c ∈ ds, ∀ a ∈ c, a ≠ '<') →
    ∀ c ∈ subCC t ds, ∀ a ∈ c, a ≠ '<' := by
  intro n
  induction n with
  | zero =>
    intro ds hl _
    have hnil : ds = [] := List.length_eq_zero.1 (Nat.le_zero.1 hl)
    subst hnil
    intro c hc
    cases hc
  | succ n ih =>
    intro ds hl hds
    cases ds with
    | nil => intro c hc; cases hc
    | cons c1 ds2 =>
      cases ds2 with
      | nil =>
        intro c hc
        exact hds c hc
      | cons c2 rest =>
        have hc2 : ∀ a ∈ c2, a ≠ '<' :=
          hds c2 (List.mem_cons_of_mem _ (List.mem_cons_self _ _))
        have hrest : ∀ c ∈ rest, ∀ a ∈ c, a ≠ '<' :=
          fun c hc => hds c (List.mem_cons_of_mem _ (List.mem_cons_of_mem _ hc))
        by_cases hcond : (((delPre (t ++ ['>']) c1).isSome &&
            (delPre (t ++ ['>']) c2).isSome) = true)
        · rw [subCC, if_pos hcond]
          intro c hc
          rcases List.mem_cons.1 hc with rfl | hc3
          · exact hds c (List.mem_cons_self _ _)
          rcases List.mem_cons.1 hc3 with rfl | hc4
          · intro a ha
            rcases List.mem_append.1 ha with h | h
            · rcases List.mem_append.1 h with h2 | h2
              · rcases List.mem_cons.1 h2 with rfl | h3
                · decide
                · exact ht a h3
              · rw [List.mem_singleton.1 h2]
                decide
            · cases hm2 : delPre (t ++ ['>']) c2 with
              | none => rw [hm2] at h; cases h
              | some u2 =>
                rw [hm2] at h
                exact delPre_chunk_rest _ _ _ hc2 hm2 a h
          · refine ih rest ?_ hrest c hc4
            simp only [List.length_cons] at hl
            omega
        · rw [subCC, if_neg hcond]
          intro c hc
          rcases List.mem_cons.1 hc with rfl | hc3
          · exact hds c (List.mem_cons_self _ _)
          · refine ih (c2 :: rest) ?_ (fun x hx => hds x (List.mem_cons_of_mem _ hx)) c hc3
            simp only [List.length_cons] at hl ⊢
            omega

/-- The adjacent-chunk repair keeps every chunk `<`-free. -/
theorem subCC_noLt (t : List Char) (ht : ∀ a ∈ t, a ≠ '<')
    (ds : List (List Char)) (hds : ∀ c ∈ ds, ∀ a ∈ c, a ≠ '<') :
    ∀ c ∈ subCC t ds, ∀ a ∈ c, a ≠ '<' :=
  subCC_noLt_aux t ht ds.length ds (Nat.le_refl _) hds

/-- The fold of the doubled-tag repairs over a decomposed string acts as
the fold of the adjacent-chunk repairs on the chunk list. -/
theorem subCloseStr_fold : ∀ (tags : List (List Char)),
    (∀ t ∈ tags, ∀ a ∈ t, a ≠ '<') →
    ∀ (p : List Char), (∀ a ∈ p, a ≠ '<') →
    ∀ (cs : List (List Char)), (∀ c ∈ cs, ∀ a ∈ c, a ≠ '<') →
    tags.foldl (fun acc t => subCloseStr t acc) (p ++ catChunks cs) =
      p ++ catChunks (tags.foldl (fun acc t => subCC t acc) cs) := by
  intro tags
  induction tags with
  | nil => intro _ p _ cs _; rfl
  | cons t tags2 ih =>
    intro htags p hp cs hcs
    have ht : ∀ a ∈ t, a ≠ '<' := htags t (List.mem_cons_self _ _)
    rw [List.foldl_cons, List.foldl_cons]
    rw [subCloseStr_pass t p _ hp, subCloseStr_chunks t ht cs hcs]
    exact ih (fun x hx => htags x (List.mem_cons_of_mem _ hx)) p hp _
      (subCC_noLt t ht cs hcs)

/-- Splitting chunks of a rebuilt chunk list gives the list back. -/
theorem chunksOf_catChunks : ∀ (ds : List (List Char)),
    (∀ c ∈ ds, ∀ a ∈ c, a ≠ '<') → chunksOf (catChunks ds) = ds := by
  intro ds
  induction ds with
  | nil => intro _; rw [catChunks, chunksOf]
  | cons c ds2 ih =>
    intro hds
    have hc : ∀ a ∈ c, a ≠ '<' := hds c (List.mem_cons_self _ _)
    rw [catChunks, List.cons_append, chunksOf]
    have htw := takeWhile_chunk c hc (catChunks ds2) (catChunks_shape ds2)
    have hlen : ((c ++ catChunks ds2).dropWhile (· ≠ '<')).length <
        (c ++ catChunks ds2).length + 1 := by
      have h := congrArg List.length
        (List.takeWhile_append_dropWhile (· ≠ '<') (c ++ catChunks ds2))
      simp only [List.length_append] at h ⊢
      omega
    rw [dif_pos hlen, htw.1, htw.2,
      ih (fun x hx => hds x (List.mem_cons_of_mem _ hx))]

/-- The sanitizer in the chunk view: on a non-empty input, `fix_html_tags`
keeps the `<`-free prefix and rewrites the chunk list by `fixChunks`. -/
theorem fixHtmlTags_decomp (s : List Char) (hne : s ≠ []) :
    fixHtmlTags s = s.takeWhile (· ≠ '<') ++
      catChunks (fixChunks (chunksOf (s.dropWhile (· ≠ '<')))) := by
  have hemp : s.isEmpty = false := by
    cases s with
    | nil => exact absurd rfl hne
    | cons a l => rfl
  have hp : ∀ a ∈ s.takeWhile (· ≠ '<'), a ≠ '<' := by
    intro a ha
    have := List.mem_takeWhile_imp ha
    simpa using this
  have hcs : ∀ c ∈ chunksOf (s.dropWhile (· ≠ '<')), ∀ a ∈ c, a ≠ '<' :=
    chunksOf_noLt _
  have hrules : ∀ qr ∈ caseQR, (∀ a ∈ qr.1, a ≠ '<') ∧ (∀ a ∈ qr.2, a ≠ '<') := by
    decide
  have htags : ∀ t ∈ [tagB, tagCode, tagStrong, tagI], ∀ a ∈ t, a ≠ '<' := by
    decide
  unfold fixHtmlTags
  rw [if_neg (by rw [hemp]; exact Bool.false_ne_true)]
  have hdec := string_decompose s
  rw [show (caseQR.foldl (fun acc qr => replaceLit ('<' :: qr.1) ('<' :: qr.2) acc) s) =
      (caseQR.foldl (fun acc qr => replaceLit ('<' :: qr.1) ('<' :: qr.2) acc)
        (s.takeWhile (· ≠ '<') ++ catChunks (chunksOf (s.dropWhile (· ≠ '<'))))) from by
    rw [← hdec]]
  rw [replaceLit_fold caseQR hrules _ hp _ hcs]
  rw [subCloseStr_fold [tagB, tagCode, tagStrong, tagI] htags _ hp _ (by
    intro c hc
    obtain ⟨x, hx, rfl⟩ := List.mem_map.1 hc
    exact foldl_chunkFix_noLt caseQR (fun qr hqr => (hrules qr hqr).2) x (hcs x hx))]
  rfl

/-- No case-fix pattern matches the front of any case-fix replacement: the
patterns carry an upper-case letter within their first two characters,
where every replacement is lower-case (or a slash followed by lower-case).
So a rewritten chunk prefix is a fixed point of every rule. -/
theorem repNoMatch : ∀ qr1 ∈ caseQR, ∀ qr2 ∈ caseQR, ∀ u : List Char,
    delPre qr1.1 (qr2.2 ++ u) = none := by
  intro qr1 h1 qr2 h2 u
  fin_cases h1 <;> fin_cases h2 <;> rfl

/-- Folding rules that all fail on a chunk leaves it unchanged. -/
theorem foldl_chunkFix_nomatch : ∀ (rules : List (List Char × List Char))
    (c : List Char), (∀ qr ∈ rules, delPre qr.1 c = none) →
    rules.foldl (fun acc qr => chunkFix qr.1 qr.2 acc) c = c := by
  intro rules
  induction rules with
  | nil => intro c _; rfl
  | cons qr rules2 ih =>
    intro c h
    rw [List.foldl_cons]
    have hfix : chunkFix qr.1 qr.2 c = c := by
      unfold chunkFix
      rw [h qr (List.mem_cons_self _ _)]
    rw [hfix]
    exact ih c (fun x hx => h x (List.mem_cons_of_mem _ hx))

/-- A chunk on which every rule fails is a fixed point of the case fixes. -/
theorem phi_of_fail (c : List Char) (h : ∀ qr ∈ caseQR, delPre qr.1 c = none) :
    phi c = c :=
  foldl_chunkFix_nomatch caseQR c h

/-- Folding a sublist of the case-fix rules either leaves the chunk alone
or turns it into some rule replacement followed by a tail. -/
theorem foldl_chunkFix_out : ∀ (rules : List (List Char × List Char)),
    (∀ qr ∈ rules, qr ∈ caseQR) → ∀ (c : List Char),
    rules.foldl (fun acc qr => chunkFix qr.1 qr.2 acc) c = c ∨
      ∃ qr ∈ caseQR, ∃ u, c = qr.1 ++ u ∧
        rules.foldl (fun acc qr => chunkFix qr.1 qr.2 acc) c = qr.2 ++ u := by
  intro rules
  induction rules with
  | nil => intro _ c; exact Or.inl rfl
  | cons qr rules2 ih =>
    intro hsub c
    rw [List.foldl_cons]
    cases hdc : delPre qr.1 c with
    | none =>
      have hfix : chunkFix qr.1 qr.2 c = c := by
        unfold chunkFix
        rw [hdc]
      rw [hfix]
      exact ih (fun x hx => hsub x (List.mem_cons_of_mem _ hx)) c
    | some u =>
      have hfix : chunkFix qr.1 qr.2 c = qr.2 ++ u := by
        unfold chunkFix
        rw [hdc]
      rw [hfix]
      have hnom : rules2.foldl (fun acc qr => chunkFix qr.1 qr.2 acc) (qr.2 ++ u) =
          qr.2 ++ u :=
        foldl_chunkFix_nomatch rules2 _ (fun x hx =>
          repNoMatch x (hsub x (List.mem_cons_of_mem _ hx))
            qr (hsub qr (List.mem_cons_self _ _)) u)
      rw [hnom]
      exact Or.inr ⟨qr, hsub qr (List.mem_cons_self _ _), u,
        delPre_some_append _ _ _ hdc, rfl⟩

/-- The case fixes on a chunk are idempotent. -/
theorem phi_idem (c : List Char) : phi (phi c) = phi c := by
  rcases foldl_chunkFix_out caseQR (fun x hx => hx) c with h | ⟨qr, hqr, u, _, h⟩
  · unfold phi
    rw [h, h]
  · unfold phi
    rw [h]
    exact foldl_chunkFix_nomatch caseQR _ (fun x hx => repNoMatch x hx qr hqr u)

/-- A closing chunk produced by the doubled-tag repair is a fixed point of
the case fixes: for each of the four tags its spelling is exactly one of
the (lower-case) rule replacements. -/
theorem close_phi_fixed (t : List Char) (ht : t ∈ [tagB, tagCode, tagStrong, tagI])
    (u : List Char) : phi ('/' :: t ++ ['>'] ++ u) = '/' :: t ++ ['>'] ++ u := by
  apply phi_of_fail
  intro qr hqr
  fin_cases ht
  · exact repNoMatch qr hqr (['/', 'B', '>'], ['/', 'b', '>']) (by decide) u
  · exact repNoMatch qr hqr (['/', 'C', 'O', 'D', 'E', '>'], ['/', 'c', 'o', 'd', 'e', '>'])
      (by decide) u
  · exact repNoMatch qr hqr
      (['/', 'S', 'T', 'R', 'O', 'N', 'G', '>'], ['/', 's', 't', 'r', 'o', 'n', 'g', '>'])
      (by decide) u
  · exact repNoMatch qr hqr (['/', 'I', '>'], ['/', 'i', '>']) (by decide) u

/-- Helper: the adjacent-chunk repair keeps every chunk a fixed point of
the case fixes. -/
theorem subCC_phiFixed_aux (t : List Char) (ht : t ∈ [tagB, tagCode, tagStrong, tagI]) :
    ∀ (n : Nat) (ds : List (List Char)), ds.length ≤ n →
    (∀ c ∈ ds, phi c = c) → ∀ c ∈ subCC t ds, phi c = c := by
  intro n
  induction n with
  | zero =>
    intro ds hl _
    have hnil : ds = [] := List.length_eq_zero.1 (Nat.le_zero.1 hl)
    subst hnil
    intro c hc
    simp only [subCC] at hc
    cases hc
  | succ n ih =>
    intro ds hl hds
    cases ds with
    | nil =>
      intro c hc
      simp only [subCC] at hc
      cases hc
    | cons c1 ds2 =>
      cases ds2 with
      | nil =>
        simp only [subCC]
        exact hds
      | cons c2 rest =>
        by_cases hcond : (((delPre (t ++ ['>']) c1).isSome &&
            (delPre (t ++ ['>']) c2).isSome) = true)
        · rw [subCC, if_pos hcond]
          intro c hc
          rcases List.mem_cons.1 hc with rfl | hc3
          · exact hds c (List.mem_cons_self _ _)
          rcases List.mem_cons.1 hc3 with rfl | hc4
          · exact close_phi_fixed t ht _
          · refine ih rest ?_ (fun x hx =>
              hds x (List.mem_cons_of_mem _ (List.mem_cons_of_mem _ hx))) c hc4
            simp only [List.length_cons] at hl
            omega
        · rw [subCC, if_neg hcond]
          intro c hc
          rcases List.mem_cons.1 hc with rfl | hc3
          · exact hds c (List.mem_cons_self _ _)
          · refine ih (c2 :: rest) ?_ (fun x hx => hds x (List.mem_cons_of_mem _ hx)) c hc3
            simp only [List.length_cons] at hl ⊢
            omega

/-- The adjacent-chunk repair keeps every chunk a fixed point of the case
fixes. -/
theorem subCC_phiFixed (t : List Char) (ht : t ∈ [tagB, tagCode, tagStrong, tagI])
    (ds : List (List Char)) (hds : ∀ c ∈ ds, phi c = c) :
    ∀ c ∈ subCC t ds, phi c = c :=
  subCC_phiFixed_aux t ht ds.length ds (Nat.le_refl _) hds

/-- Dropping the first chunk preserves the no-adjacent-tags shape. -/
theorem noAdj_tail (t c : List Char) (l : List (List Char))
    (h : noAdj t (c :: l)) : noAdj t l := by
  cases l with
  | nil => trivial
  | cons c2 l2 => exact h.2

/-- A chunk that does not start with the opening tag can be put in front
of any no-adjacent-tags list. -/
theorem noAdj_cons_of_fail (t c : List Char) (l : List (List Char))
    (hc : (delPre (t ++ ['>']) c).isSome = false) (hl : noAdj t l) :
    noAdj t (c :: l) := by
  cases l with
  | nil => trivial
  | cons c2 l2 =>
    exact ⟨fun hp => absurd hp.1 (by rw [hc]; exact Bool.false_ne_true), hl⟩

/-- The adjacent-chunk repair keeps the head chunk in place. -/
theorem subCC_cons (t c : List Char) (l : List (List Char)) :
    ∃ l2, subCC t (c :: l) = c :: l2 := by
  cases l with
  | nil => exact ⟨[], rfl⟩
  | cons c2 r =>
    by_cases h : (((delPre (t ++ ['>']) c).isSome && (delPre (t ++ ['>']) c2).isSome) = true)
    · exact ⟨_, by rw [subCC, if_pos h]⟩
    · exact ⟨_, by rw [subCC, if_neg h]⟩

/-- A tag whose name does not start with a slash never matches a closing
chunk. -/
theorem delPre_tag_close (t1 : List Char) (h : ∃ h0 t0, t1 = h0 :: t0 ∧ h0 ≠ '/')
    (u : List Char) : (delPre (t1 ++ ['>']) ('/' :: u)).isSome = false := by
  obtain ⟨h0, t0, rfl, hne⟩ := h
  rw [List.cons_append, delPre_head_ne h0 '/' _ _ hne]
  rfl

/-- Helper: the adjacent-chunk repair leaves no two adjacent chunks that
both start with its own tag. -/
theorem noAdj_subCC_self_aux (t : List Char) (hhead : ∃ h0 t0, t = h0 :: t0 ∧ h0 ≠ '/') :
    ∀ (n : Nat) (ds : List (List Char)), ds.length ≤ n → noAdj t (subCC t ds) := by
  intro n
  induction n with
  | zero =>
    intro ds hl
    have hnil : ds = [] := List.length_eq_zero.1 (Nat.le_zero.1 hl)
    subst hnil
    simp only [subCC]
    trivial
  | succ n ih =>
    intro ds hl
    cases ds with
    | nil =>
      simp only [subCC]
      trivial
    | cons c1 ds2 =>
      cases ds2 with
      | nil =>
        simp only [subCC]
        trivial
      | cons c2 rest =>
        by_cases hcond : (((delPre (t ++ ['>']) c1).isSome &&
            (delPre (t ++ ['>']) c2).isSome) = true)
        · rw [subCC, if_pos hcond]
          have hclose : (delPre (t ++ ['>'])
              ('/' :: t ++ ['>'] ++ (delPre (t ++ ['>']) c2).getD [])).isSome = false :=
            delPre_tag_close t hhead _
          refine ⟨fun hp => absurd hp.2 (by rw [hclose]; exact Bool.false_ne_true), ?_⟩
          refine noAdj_cons_of_fail t _ _ hclose (ih rest ?_)
          simp only [List.length_cons] at hl
          omega
        · rw [subCC, if_neg hcond]
          obtain ⟨l2, hl2⟩ := subCC_cons t c2 rest
          rw [hl2]
          refine ⟨fun hp => hcond (by rw [hp.1, hp.2]; rfl), ?_⟩
          rw [← hl2]
          refine ih (c2 :: rest) ?_
          simp only [List.length_cons] at hl ⊢
          omega

/-- The adjacent-chunk repair leaves no two adjacent chunks that both
start with its own tag. -/
theorem noAdj_subCC_self (t : List Char) (hhead : ∃ h0 t0, t = h0 :: t0 ∧ h0 ≠ '/')
    (ds : List (List Char)) : noAdj t (subCC t ds) :=
  noAdj_subCC_self_aux t hhead ds.length ds (Nat.le_refl _)

/-- Helper: a no-adjacent-tags shape for one tag survives the repair for
any tag. -/
theorem noAdj_subCC_preserve_aux (t1 t2 : List Char)
    (hhead : ∃ h0 t0, t1 = h0 :: t0 ∧ h0 ≠ '/') :
    ∀ (n : Nat) (ds : List (List Char)), ds.length ≤ n →
    noAdj t1 ds → noAdj t1 (subCC t2 ds) := by
  intro n
  induction n with
  | zero =>
    intro ds hl _
    have hnil : ds = [] := List.length_eq_zero.1 (Nat.le_zero.1 hl)
    subst hnil
    simp only [subCC]
    trivial
  | succ n ih =>
    intro ds hl hna
    cases ds with
    | nil =>
      simp only [subCC]
      trivial
    | cons c1 ds2 =>
      cases ds2 with
      | nil =>
        simp only [subCC]
        trivial
      | cons c2 rest =>
        by_cases hcond : (((delPre (t2 ++ ['>']) c1).isSome &&
            (delPre (t2 ++ ['>']) c2).isSome) = true)
        · rw [subCC, if_pos hcond]
          have hclose : (delPre (t1 ++ ['>'])
              ('/' :: t2 ++ ['>'] ++ (delPre (t2 ++ ['>']) c2).getD [])).isSome = false :=
            delPre_tag_close t1 hhead _
          refine ⟨fun hp => absurd hp.2 (by rw [hclose]; exact Bool.false_ne_true), ?_⟩
          refine noAdj_cons_of_fail t1 _ _ hclose
            (ih rest ?_ (noAdj_tail t1 c2 rest (noAdj_tail t1 c1 (c2 :: rest) hna)))
          simp only [List.length_cons] at hl
          omega
        · rw [subCC, if_neg hcond]
          obtain ⟨l2, hl2⟩ := subCC_cons t2 c2 rest
          rw [hl2]
          refine ⟨?_, ?_⟩
          · exact hna.1
          · rw [← hl2]
            refine ih (c2 :: rest) ?_ hna.2
            simp only [List.length_cons] at hl ⊢
            omega

/-- A no-adjacent-tags shape for one tag survives the repair for any tag. -/
theorem noAdj_subCC_preserve (t1 t2 : List Char)
    (hhead : ∃ h0 t0, t1 = h0 :: t0 ∧ h0 ≠ '/')
    (ds : List (List Char)) (h : noAdj t1 ds) : noAdj t1 (subCC t2 ds) :=
  noAdj_subCC_preserve_aux t1 t2 hhead ds.length ds (Nat.le_refl _) h

/-- Helper: on a no-adjacent-tags list the repair finds nothing to do. -/
theorem subCC_of_noAdj_aux (t : List Char) :
    ∀ (n : Nat) (ds : List (List Char)), ds.length ≤ n →
    noAdj t ds → subCC t ds = ds := by
  intro n
  induction n with
  | zero =>
    intro ds hl _
    have hnil : ds = [] := List.length_eq_zero.1 (Nat.le_zero.1 hl)
    subst hnil
    rfl
  | succ n ih =>
    intro ds hl hna
    cases ds with
    | nil => rfl
    | cons c1 ds2 =>
      cases ds2 with
      | nil => rfl
      | cons c2 rest =>
        have hcond : ¬(((delPre (t ++ ['>']) c1).isSome &&
            (delPre (t ++ ['>']) c2).isSome) = true) :=
          fun hx => hna.1 (by rw [Bool.and_eq_true] at hx; exact hx)
        rw [subCC, if_neg hcond]
        rw [ih (c2 :: rest) (by simp only [List.length_cons] at hl ⊢; omega) hna.2]

/-- On a no-adjacent-tags list the repair finds nothing to do. -/
theorem subCC_of_noAdj (t : List Char) (ds : List (List Char))
    (h : noAdj t ds) : subCC t ds = ds :=
  subCC_of_noAdj_aux t ds.length ds (Nat.le_refl _) h

/-- Every chunk of the sanitized chunk list is a fixed point of the case
fixes. -/
theorem fixChunks_phiFixed (cs : List (List Char)) :
    ∀ c ∈ fixChunks cs, phi c = c := by
  have h0 : ∀ c ∈ cs.map phi, phi c = c := by
    intro c hc
    obtain ⟨x, hx, rfl⟩ := List.mem_map.1 hc
    exact phi_idem x
  exact subCC_phiFixed tagI (by decide) _
    (subCC_phiFixed tagStrong (by decide) _
      (subCC_phiFixed tagCode (by decide) _
        (subCC_phiFixed tagB (by decide) _ h0)))

/-- The sanitized chunk list has no two adjacent chunks opening the same
repaired tag, for each of the four tags. -/
theorem fixChunks_noAdj (cs : List (List Char)) :
    noAdj tagB (fixChunks cs) ∧ noAdj tagCode (fixChunks cs) ∧
      noAdj tagStrong (fixChunks cs) ∧ noAdj tagI (fixChunks cs) := by
  have hb : ∃ h0 t0, tagB = h0 :: t0 ∧ h0 ≠ '/' := ⟨'b', [], rfl, by decide⟩
  have hcode : ∃ h0 t0, tagCode = h0 :: t0 ∧ h0 ≠ '/' :=
    ⟨'c', ['o', 'd', 'e'], rfl, by decide⟩
  have hstrong : ∃ h0 t0, tagStrong = h0 :: t0 ∧ h0 ≠ '/' :=
    ⟨'s', ['t', 'r', 'o', 'n', 'g'], rfl, by decide⟩
  have hi : ∃ h0 t0, tagI = h0 :: t0 ∧ h0 ≠ '/' := ⟨'i', [], rfl, by decide⟩
  refine ⟨?_, ?_, ?_, ?_⟩
  · exact noAdj_subCC_preserve tagB tagI hb _
      (noAdj_subCC_preserve tagB tagStrong hb _
        (noAdj_subCC_preserve tagB tagCode hb _
          (noAdj_subCC_self tagB hb _)))
  · exact noAdj_subCC_preserve tagCode tagI hcode _
      (noAdj_subCC_preserve tagCode tagStrong hcode _
        (noAdj_subCC_self tagCode hcode _))
  · exact noAdj_subCC_preserve tagStrong tagI hstrong _
      (noAdj_subCC_self tagStrong hstrong _)
  · exact noAdj_subCC_self tagI hi _

/-- Mapping a function that fixes every member leaves the list unchanged. -/
theorem map_self {α : Type} (f : α → α) : ∀ (l : List α),
    (∀ x ∈ l, f x = x) → l.map f = l := by
  intro l
  induction l with
  | nil => intro _; rfl
  | cons a l2 ih =>
    intro h
    rw [List.map_cons, h a (List.mem_cons_self _ _),
      ih (fun x hx => h x (List.mem_cons_of_mem _ hx))]

/-- The sanitizer on the chunk list is idempotent. -/
theorem fixChunks_idem (cs : List (List Char)) :
    fixChunks (fixChunks cs) = fixChunks cs := by
  have hphi := fixChunks_phiFixed cs
  have hna := fixChunks_noAdj cs
  show [tagB, tagCode, tagStrong, tagI].foldl (fun acc t => subCC t acc)
    ((fixChunks cs).map phi) = fixChunks cs
  rw [map_self phi _ hphi]
  show subCC tagI (subCC tagStrong (subCC tagCode (subCC tagB (fixChunks cs)))) =
    fixChunks cs
  rw [subCC_of_noAdj tagB _ hna.1, subCC_of_noAdj tagCode _ hna.2.1,
    subCC_of_noAdj tagStrong _ hna.2.2.1, subCC_of_noAdj tagI _ hna.2.2.2]

/-- Helper: the adjacent-chunk repair preserves the number of chunks. -/
theorem subCC_length_aux : ∀ (n : Nat) (t : List Char) (ds : List (List Char)),
    ds.length ≤ n → (subCC t ds).length = ds.length := by
  intro n
  induction n with
  | zero =>
    intro t ds hl
    have hnil : ds = [] := List.length_eq_zero.1 (Nat.le_zero.1 hl)
    subst hnil
    rfl
  | succ n ih =>
    intro t ds hl
    cases ds with
    | nil => rfl
    | cons c1 ds2 =>
      cases ds2 with
      | nil => rfl
      | cons c2 rest =>
        by_cases hcond : (((delPre (t ++ ['>']) c1).isSome &&
            (delPre (t ++ ['>']) c2).isSome) = true)
        · rw [subCC, if_pos hcond]
          simp only [List.length_cons]
          rw [ih t rest (by simp only [List.length_cons] at hl; omega)]
        · rw [subCC, if_neg hcond]
          simp only [List.length_cons]
          rw [ih t (c2 :: rest) (by simp only [List.length_cons] at hl ⊢; omega)]
          simp only [List.length_cons]

/-- The adjacent-chunk repair preserves the number of chunks. -/
theorem subCC_length (t : List Char) (ds : List (List Char)) :
    (subCC t ds).length = ds.length :=
  subCC_length_aux ds.length t ds (Nat.le_refl _)

/-- The sanitizer preserves the number of chunks. -/
theorem fixChunks_length (cs : List (List Char)) :
    (fixChunks cs).length = cs.length := by
  show (subCC tagI (subCC tagStrong (subCC tagCode (subCC tagB (cs.map phi))))).length =
    cs.length
  rw [subCC_length, subCC_length, subCC_length, subCC_length, List.length_map]

/-- Two tag tokens (a `>`-free run closed by `>`) that start the same
string are the same token with the same remainder. -/
theorem gtToken_prefix_eq : ∀ (p r u v : List Char),
    (∀ a ∈ p, a ≠ '>') → (∀ a ∈ r, a ≠ '>') →
    (p ++ ['>']) ++ u = (r ++ ['>']) ++ v → p = r ∧ u = v := by
  intro p
  induction p with
  | nil =>
    intro r u v _ hr heq
    cases r with
    | nil =>
      simp only [List.nil_append, List.cons_append] at heq
      injection heq with h1 h2
      exact ⟨rfl, h2⟩
    | cons x r2 =>
      simp only [List.nil_append, List.cons_append] at heq
      injection heq with h1 h2
      exact absurd h1.symm (hr x (List.mem_cons_self _ _))
  | cons a p2 ih =>
    intro r u v hp hr heq
    cases r with
    | nil =>
      simp only [List.nil_append, List.cons_append] at heq
      injection heq with h1 h2
      exact absurd h1 (hp a (List.mem_cons_self _ _))
    | cons x r2 =>
      simp only [List.cons_append] at heq
      injection heq with h1 h2
      obtain ⟨he, hu⟩ := ih r2 u v (fun y hy => hp y (List.mem_cons_of_mem _ hy))
        (fun y hy => hr y (List.mem_cons_of_mem _ hy)) h2
      exact ⟨by rw [h1, he], hu⟩

/-- Every case-fix replacement is a tag token: a `>`-free run closed by a
final `>`. -/
theorem caseQR_rep_form : ∀ qr ∈ caseQR, ∃ q0, qr.2 = q0 ++ ['>'] ∧
    ∀ a ∈ q0, a ≠ '>' := by
  intro qr h
  fin_cases h
  · exact ⟨['c', 'o', 'd', 'e'], rfl, by decide⟩
  · exact ⟨['/', 'c', 'o', 'd', 'e'], rfl, by decide⟩
  · exact ⟨['c', 'o', 'd', 'e'], rfl, by decide⟩
  · exact ⟨['/', 'c', 'o', 'd', 'e'], rfl, by decide⟩
  · exact ⟨['b'], rfl, by decide⟩
  · exact ⟨['/', 'b'], rfl, by decide⟩
  · exact ⟨['s', 't', 'r', 'o', 'n', 'g'], rfl, by decide⟩
  · exact ⟨['/', 's', 't', 'r', 'o', 'n', 'g'], rfl, by decide⟩
  · exact ⟨['i'], rfl, by decide⟩
  · exact ⟨['/', 'i'], rfl, by decide⟩
  · exact ⟨['u'], rfl, by decide⟩
  · exact ⟨['/', 'u'], rfl, by decide⟩
  · exact ⟨['e', 'm'], rfl, by decide⟩
  · exact ⟨['/', 'e', 'm'], rfl, by decide⟩

/-- Chaining two pointwise relations over the same middle list. -/
theorem forall2_trans {α : Type} (R S T : α → α → Prop)
    (hcomp : ∀ a b c, R a b → S b c → T a c) :
    ∀ (l1 l2 l3 : List α), List.Forall₂ R l1 l2 → List.Forall₂ S l2 l3 →
    List.Forall₂ T l1 l3 := by
  intro l1 l2 l3 h1
  induction h1 generalizing l3 with
  | nil =>
    intro h2
    cases h2
    exact List.Forall₂.nil
  | cons hab h12 ih =>
    intro h2
    cases h2 with
    | cons hbc h23 => exact List.Forall₂.cons (hcomp _ _ _ hab hbc) (ih _ h23)

/-- The case-fix pass relates every chunk to its image: unchanged, or its
leading tag spelling rewritten by one rule with the rest verbatim. -/
theorem forall2_phi : ∀ (cs : List (List Char)),
    List.Forall₂ chunkRel cs (cs.map phi) := by
  intro cs
  induction cs with
  | nil => exact List.Forall₂.nil
  | cons c cs2 ih =>
    refine List.Forall₂.cons ?_ ih
    rcases foldl_chunkFix_out caseQR (fun x hx => hx) c with h | ⟨qr, hqr, u, hcq, h⟩
    · exact Or.inl h
    · exact Or.inr (Or.inl ⟨qr, hqr, u, hcq, h⟩)

/-- Helper: the repair for one tag relates every chunk to its image. -/
theorem forall2_close_aux : ∀ (n : Nat) (t : List Char) (ds : List (List Char)),
    ds.length ≤ n → List.Forall₂ (relClose t) ds (subCC t ds) := by
  intro n
  induction n with
  | zero =>
    intro t ds hl
    have hnil : ds = [] := List.length_eq_zero.1 (Nat.le_zero.1 hl)
    subst hnil
    exact List.Forall₂.nil
  | succ n ih =>
    intro t ds hl
    cases ds with
    | nil => exact List.Forall₂.nil
    | cons c1 ds2 =>
      cases ds2 with
      | nil => exact List.Forall₂.cons (Or.inl rfl) List.Forall₂.nil
      | cons c2 rest =>
        by_cases hcond : (((delPre (t ++ ['>']) c1).isSome &&
            (delPre (t ++ ['>']) c2).isSome) = true)
        · rw [subCC, if_pos hcond]
          rw [Bool.and_eq_true] at hcond
          obtain ⟨u2, hm2⟩ := Option.isSome_iff_exists.1 hcond.2
          refine List.Forall₂.cons (Or.inl rfl) (List.Forall₂.cons ?_ (ih t rest ?_))
          · refine Or.inr ⟨u2, delPre_some_append _ _ _ hm2, ?_⟩
            rw [hm2]
            rfl
          · simp only [List.length_cons] at hl
            omega
        · rw [subCC, if_neg hcond]
          refine List.Forall₂.cons (Or.inl rfl) (ih t (c2 :: rest) ?_)
          simp only [List.length_cons] at hl ⊢
          omega

/-- The repair for one tag relates every chunk to its image. -/
theorem forall2_close (t : List Char) (ds : List (List Char)) :
    List.Forall₂ (relClose t) ds (subCC t ds) :=
  forall2_close_aux ds.length t ds (Nat.le_refl _)

/-- One more repair pass composed after any sanitizer chunk rewrite is
still a sanitizer chunk rewrite: a chunk is closed at most once, and a
closing always applies to the current (already case-fixed) tag spelling. -/
theorem chunkRel_close_comp (t : List Char)
    (ht : t ∈ [tagB, tagCode, tagStrong, tagI]) (a b c : List Char)
    (h1 : chunkRel a b) (h2 : relClose t b c) : chunkRel a c := by
  have htgt : ∀ x ∈ t, x ≠ '>' := by fin_cases ht <;> decide
  rcases h2 with rfl | ⟨v, hbv, hcv⟩
  · exact h1
  · rcases h1 with rfl | ⟨qr, hqr, u, hau, hbu⟩ | ⟨t1, ht1, u, hau, hbu⟩ |
      ⟨qr, hqr, t1, ht1, u, hau, hq2, hbu⟩
    · exact Or.inr (Or.inr (Or.inl ⟨t, ht, v, hbv, hcv⟩))
    · obtain ⟨q0, hq0, hq0gt⟩ := caseQR_rep_form qr hqr
      rw [hq0] at hbu
      have heq : (q0 ++ ['>']) ++ u = (t ++ ['>']) ++ v := hbu.symm.trans hbv
      obtain ⟨hq0t, huv⟩ := gtToken_prefix_eq q0 t u v hq0gt htgt heq
      refine Or.inr (Or.inr (Or.inr ⟨qr, hqr, t, ht, u, hau, ?_, ?_⟩))
      · rw [hq0, hq0t]
      · rw [hcv, huv]
    · exfalso
      have ht1gt : ∀ x ∈ t1, x ≠ '>' := by fin_cases ht1 <;> decide
      have hslgt : ∀ x ∈ '/' :: t1, x ≠ '>' := by
        intro x hx
        rcases List.mem_cons.1 hx with rfl | hx2
        · decide
        · exact ht1gt x hx2
      have heq : (('/' :: t1) ++ ['>']) ++ u = (t ++ ['>']) ++ v := hbu.symm.trans hbv
      obtain ⟨hte, _⟩ := gtToken_prefix_eq ('/' :: t1) t u v hslgt htgt heq
      have hhd : t.head? ≠ some '/' := by fin_cases ht <;> decide
      apply hhd
      rw [← hte]
      rfl
    · exfalso
      have ht1gt : ∀ x ∈ t1, x ≠ '>' := by fin_cases ht1 <;> decide
      have hslgt : ∀ x ∈ '/' :: t1, x ≠ '>' := by
        intro x hx
        rcases List.mem_cons.1 hx with rfl | hx2
        · decide
        · exact ht1gt x hx2
      have heq : (('/' :: t1) ++ ['>']) ++ u = (t ++ ['>']) ++ v := hbu.symm.trans hbv
      obtain ⟨hte, _⟩ := gtToken_prefix_eq ('/' :: t1) t u v hslgt htgt heq
      have hhd : t.head? ≠ some '/' := by fin_cases ht <;> decide
      apply hhd
      rw [← hte]
      rfl

/-- The whole sanitizer relates every chunk of its input to the matching
chunk of its output by a tag-spelling-only rewrite. -/
theorem fixChunks_rel (cs : List (List Char)) :
    List.Forall₂ chunkRel cs (fixChunks cs) := by
  have h0 := forall2_phi cs
  have h1 := forall2_close tagB (cs.map phi)
  have h2 := forall2_close tagCode (subCC tagB (cs.map phi))
  have h3 := forall2_close tagStrong (subCC tagCode (subCC tagB (cs.map phi)))
  have h4 := forall2_close tagI
    (subCC tagStrong (subCC tagCode (subCC tagB (cs.map phi))))
  have hc1 := forall2_trans chunkRel (relClose tagB) chunkRel
    (chunkRel_close_comp tagB (by decide)) _ _ _ h0 h1
  have hc2 := forall2_trans chunkRel (relClose tagCode) chunkRel
    (chunkRel_close_comp tagCode (by decide)) _ _ _ hc1 h2
  have hc3 := forall2_trans chunkRel (relClose tagStrong) chunkRel
    (chunkRel_close_comp tagStrong (by decide)) _ _ _ hc2 h3
  have hc4 := forall2_trans chunkRel (relClose tagI) chunkRel
    (chunkRel_close_comp tagI (by decide)) _ _ _ hc3 h4
  exact hc4

/-- C8: the output sanitizer `fix_html_tags` (src/utils.py lines 14-55) is
idempotent — applying it twice gives the same result as applying it once —
and it changes only markup-tag spellings, never the plain text content
between tags: the output is exactly the input's `<`-free prefix, verbatim,
followed by the input's `<`-chunks, where each chunk is related to its
image by `chunkRel` — unchanged, or its leading tag spelling rewritten
(case normalisation, closing of a doubled opening tag, or the two in
sequence) with the text after the tag spelling preserved verbatim.  On
`<`-free text the sanitizer is the identity. -/
theorem fixHtmlTags_idem (s : List Char) :
    fixHtmlTags (fixHtmlTags s) = fixHtmlTags s ∧
      fixHtmlTags s = s.takeWhile (· ≠ '<') ++
        catChunks (fixChunks (chunksOf (s.dropWhile (· ≠ '<')))) ∧
      List.Forall₂ chunkRel (chunksOf (s.dropWhile (· ≠ '<')))
        (fixChunks (chunksOf (s.dropWhile (· ≠ '<')))) ∧
      ((∀ a ∈ s, a ≠ '<') → fixHtmlTags s = s) := by
  by_cases hs : s = []
  · subst hs
    refine ⟨rfl, ?_, ?_, fun _ => rfl⟩
    · simp only [List.takeWhile_nil, List.dropWhile_nil]
      rw [chunksOf]
      rfl
    · simp only [List.dropWhile_nil]
      rw [chunksOf]
      exact List.Forall₂.nil
  · have hp : ∀ a ∈ s.takeWhile (· ≠ '<'), a ≠ '<' := by
      intro a ha
      have := List.mem_takeWhile_imp ha
      simpa using this
    have hcs : ∀ c ∈ chunksOf (s.dropWhile (· ≠ '<')), ∀ a ∈ c, a ≠ '<' :=
      chunksOf_noLt _
    have hmapphi : ∀ c ∈ (chunksOf (s.dropWhile (· ≠ '<'))).map phi,
        ∀ a ∈ c, a ≠ '<' := by
      intro c hc
      obtain ⟨x, hx, rfl⟩ := List.mem_map.1 hc
      exact foldl_chunkFix_noLt caseQR (by decide) x (hcs x hx)
    have hds : ∀ c ∈ fixChunks (chunksOf (s.dropWhile (· ≠ '<'))), ∀ a ∈ c, a ≠ '<' :=
      subCC_noLt tagI (by decide) _
        (subCC_noLt tagStrong (by decide) _
          (subCC_noLt tagCode (by decide) _
            (subCC_noLt tagB (by decide) _ hmapphi)))
    have h1 := fixHtmlTags_decomp s hs
    refine ⟨?_, h1, fixChunks_rel _, ?_⟩
    · have hsne : fixHtmlTags s ≠ [] := by
        rw [h1]
        intro hx
        rcases List.append_eq_nil.1 hx with ⟨hpn, hcn⟩
        have hds_nil : fixChunks (chunksOf (s.dropWhile (· ≠ '<'))) = [] := by
          cases hfc : fixChunks (chunksOf (s.dropWhile (· ≠ '<'))) with
          | nil => rfl
          | cons d l =>
            rw [hfc, catChunks] at hcn
            simp at hcn
        have hlen := fixChunks_length (chunksOf (s.dropWhile (· ≠ '<')))
        rw [hds_nil] at hlen
        have hcs_nil : chunksOf (s.dropWhile (· ≠ '<')) = [] :=
          List.length_eq_zero.1 hlen.symm
        have hdrop_nil : s.dropWhile (· ≠ '<') = [] := by
          have h3 := catChunks_chunksOf _ (dropWhile_lt_shape s)
          rw [hcs_nil] at h3
          exact h3.symm
        apply hs
        have h4 : s = s.takeWhile (· ≠ '<') ++ s.dropWhile (· ≠ '<') :=
          (List.takeWhile_append_dropWhile (· ≠ '<') s).symm
        rw [h4, hpn, hdrop_nil]
        rfl
      have h2 := fixHtmlTags_decomp (fixHtmlTags s) hsne
      rw [h1] at h2
      have htw := takeWhile_chunk (s.takeWhile (· ≠ '<')) hp
        (catChunks (fixChunks (chunksOf (s.dropWhile (· ≠ '<')))))
        (catChunks_shape _)
      rw [htw.1, htw.2, chunksOf_catChunks _ hds] at h2
      rw [h1, h2, fixChunks_idem]
    · intro hfree
      have htd := takeWhile_chunk s hfree [] (Or.inl rfl)
      rw [List.append_nil] at htd
      rw [h1, htd.1, htd.2, chunksOf]
      rw [show fixChunks ([] : List (List Char)) = [] from rfl, catChunks,
        List.append_nil]

/-- Witness for `fixHtmlTags_idem`: the hypothesis of the markup-free part
holds at a concrete markup-free string and the sanitizer returns it
unchanged. -/
theorem fixHtmlTags_idem_witness :
    (∀ a ∈ ['O', 'K'], a ≠ '<') ∧ fixHtmlTags ['O', 'K'] = ['O', 'K'] :=
  ⟨by decide, (fixHtmlTags_idem ['O', 'K']).2.2.2 (by decide)⟩

end NS
